import Mathlib

/-!
# Verification of the cora object store (`src/cora.h`)

The repository consists of the public header `cora.h`: an embeddable
dynamic-language runtime built around a handle-indexed, relocatable memory
arena (`cora_state`).  The header declares the API (constructors, list and
map mutation, native-function registration) and documents its behaviour;
the implementation itself is not part of the repository snapshot, so the
operational definitions below are modelled from the specification's
description of the object store, while the C declarations (argument and
return types) are transcribed directly from the header.
-/

namespace Cora

/-! ## C declaration surface, transcribed from `cora.h`

Each function declared in `cora.h` is recorded with its argument types and
return type exactly as written in the header.  These are used to settle
claims about the shape of the API (what returns `bool`, what takes a
`cora_state*`). -/

/-- C types appearing in the declarations of `cora.h`. -/
inductive CType where
  | void
  | cbool
  | cint
  | int64T
  | uint32T
  | doubleT
  | sizeT
  | charPtr
  | u8Ptr
  | statePtr
  | sizeTPtr
  | funcPtr
  | moduleDefPtr
  | charPtrPtrPtr
  | sizeTPtrPtr
  deriving DecidableEq, Repr

/-- One C function declaration: name, argument types in order, return type. -/
structure CDecl where
  name : String
  args : List CType
  ret : CType
  deriving DecidableEq, Repr

/-- `int cora_run(struct cora_state* state, uint8_t* source);` -/
def cora_run_decl : CDecl :=
  ⟨"cora_run", [CType.statePtr, CType.u8Ptr], CType.cint⟩

/-- `int cora_define_function(const char* func_name, size_t (*func)(struct cora_state* state));` -/
def cora_define_function_decl : CDecl :=
  ⟨"cora_define_function", [CType.charPtr, CType.funcPtr], CType.cint⟩

/-- `int cora_define_module(const char* module_name, const size_t defs_len, const struct cora_module_def* defs);` -/
def cora_define_module_decl : CDecl :=
  ⟨"cora_define_module", [CType.charPtr, CType.sizeT, CType.moduleDefPtr], CType.cint⟩

/-- `bool cora_int(struct cora_state* state, size_t* out, const int64_t x);` -/
def cora_int_decl : CDecl :=
  ⟨"cora_int", [CType.statePtr, CType.sizeTPtr, CType.int64T], CType.cbool⟩

/-- `bool cora_float(struct cora_state* state, size_t* out, const double x);` -/
def cora_float_decl : CDecl :=
  ⟨"cora_float", [CType.statePtr, CType.sizeTPtr, CType.doubleT], CType.cbool⟩

/-- `bool cora_char(struct cora_state* state, size_t* out, const uint32_t x);` -/
def cora_char_decl : CDecl :=
  ⟨"cora_char", [CType.statePtr, CType.sizeTPtr, CType.uint32T], CType.cbool⟩

/-- `bool cora_string(struct cora_state* state, size_t* out, const char* x);` -/
def cora_string_decl : CDecl :=
  ⟨"cora_string", [CType.statePtr, CType.sizeTPtr, CType.charPtr], CType.cbool⟩

/-- `bool cora_bool(struct cora_state* state, size_t* out, const bool x);` -/
def cora_bool_decl : CDecl :=
  ⟨"cora_bool", [CType.statePtr, CType.sizeTPtr, CType.cbool], CType.cbool⟩

/-- `bool cora_map(struct cora_state* state, size_t* out);` -/
def cora_map_decl : CDecl :=
  ⟨"cora_map", [CType.statePtr, CType.sizeTPtr], CType.cbool⟩

/-- `bool cora_map_insert(struct cora_state* state, const size_t map, const char* name, const size_t value);` -/
def cora_map_insert_decl : CDecl :=
  ⟨"cora_map_insert", [CType.statePtr, CType.sizeT, CType.charPtr, CType.sizeT], CType.cbool⟩

/-- `void cora_map_del(struct cora_state* state, const size_t map, const char* name);` -/
def cora_map_del_decl : CDecl :=
  ⟨"cora_map_del", [CType.statePtr, CType.sizeT, CType.charPtr], CType.void⟩

/-- `void cora_map_pairs(struct cora_state* state, const size_t map, char*** names, size_t** values, size_t* len);` -/
def cora_map_pairs_decl : CDecl :=
  ⟨"cora_map_pairs",
    [CType.statePtr, CType.sizeT, CType.charPtrPtrPtr, CType.sizeTPtrPtr, CType.sizeTPtr],
    CType.void⟩

/-- `size_t cora_map_length(struct cora_state* state, const size_t map);` -/
def cora_map_length_decl : CDecl :=
  ⟨"cora_map_length", [CType.statePtr, CType.sizeT], CType.sizeT⟩

/-- `bool cora_list(struct cora_state* state, size_t* out);` -/
def cora_list_decl : CDecl :=
  ⟨"cora_list", [CType.statePtr, CType.sizeTPtr], CType.cbool⟩

/-- `bool cora_list_append(struct cora_state* state, size_t* l, const size_t x);` -/
def cora_list_append_decl : CDecl :=
  ⟨"cora_list_append", [CType.statePtr, CType.sizeTPtr, CType.sizeT], CType.cbool⟩

/-- `bool cora_list_insert(struct cora_state* state, size_t* l, const size_t x, const size_t index);` -/
def cora_list_insert_decl : CDecl :=
  ⟨"cora_list_insert", [CType.statePtr, CType.sizeTPtr, CType.sizeT, CType.sizeT], CType.cbool⟩

/-- `void cora_list_del(struct cora_state* state, size_t* l, const size_t x, const size_t index);` -/
def cora_list_del_decl : CDecl :=
  ⟨"cora_list_del", [CType.statePtr, CType.sizeTPtr, CType.sizeT, CType.sizeT], CType.void⟩

/-- `size_t cora_list_length(struct cora_state* state, const size_t list);` -/
def cora_list_length_decl : CDecl :=
  ⟨"cora_list_length", [CType.statePtr, CType.sizeT], CType.sizeT⟩

/-- `void cora_list_items(struct cora_state* state, const size_t list, size_t* out_len, size_t* out);` -/
def cora_list_items_decl : CDecl :=
  ⟨"cora_list_items", [CType.statePtr, CType.sizeT, CType.sizeTPtr, CType.sizeTPtr], CType.void⟩

/-- Every function declared in `cora.h`, in header order. -/
def coraApiDecls : List CDecl :=
  [cora_run_decl, cora_define_function_decl, cora_define_module_decl,
   cora_int_decl, cora_float_decl, cora_char_decl, cora_string_decl,
   cora_bool_decl, cora_map_decl, cora_map_insert_decl, cora_map_del_decl,
   cora_map_pairs_decl, cora_map_length_decl, cora_list_decl,
   cora_list_append_decl, cora_list_insert_decl, cora_list_del_decl,
   cora_list_length_decl, cora_list_items_decl]

/-- The list/map mutation operations of the header: list append, list
insert, list delete, map insert, map delete. -/
def coraMutationDecls : List CDecl :=
  [cora_list_append_decl, cora_list_insert_decl, cora_list_del_decl,
   cora_map_insert_decl, cora_map_del_decl]

/-! ## Byte-level primitives

The arena is a byte buffer; objects live at `(offset, size)` ranges inside
it.  `extract` reads a range, `writeBytes` overwrites a range in place. -/

/-- Read `len` bytes starting at `off`. -/
def extract (mem : List Nat) (off len : Nat) : List Nat :=
  (mem.drop off).take len

/-- Overwrite the range starting at `off` with `bs` (callers keep
`off + bs.length ≤ mem.length`). -/
def writeBytes (mem : List Nat) (off : Nat) (bs : List Nat) : List Nat :=
  mem.take off ++ bs ++ mem.drop (off + bs.length)

/-- Little-endian encoding of `n` into `w` bytes (truncating mod `256 ^ w`,
as a fixed-width C integer store does). -/
def encLE : Nat → Nat → List Nat
  | 0, _ => []
  | w + 1, n => n % 256 :: encLE w (n / 256)

/-- Little-endian decoding of up to `w` bytes. -/
def decLE : Nat → List Nat → Nat
  | 0, _ => 0
  | _ + 1, [] => 0
  | w + 1, b :: bs => b + 256 * decLE w bs

/-! ## The object store

`cora.h` only declares the store (`struct cora_state`) and its operations;
the implementation is not part of the repository snapshot.  The
definitions below are therefore modelled from the specification: a
relocatable byte arena, a handle table of `(offset, size, type_tag)`
entries providing stable integer handles, and the tagged-object encoding
on top of them. -/

/-- The eight value kinds of `enum cora_type` in `cora.h`. -/
inductive CoraType where
  | nil
  | int
  | float
  | char
  | string
  | list
  | map
  | bool
  deriving DecidableEq, Repr

/-- Modelled from the spec: a Handle Table entry `(offset, size, type_tag)`
describing where in the Arena a handle's encoded bytes live, plus a
liveness mark (`free` marks the handle dead). -/
structure Entry where
  offset : Nat
  size : Nat
  tag : CoraType
  live : Bool
  deriving DecidableEq, Repr

/-- Modelled from the spec: `struct cora_state`.  `memory`/`memLen` are the
Arena (`uint8_t* memory; size_t memory_len`), `objects` is the handle
table, `symbols`/`values` the symbol table arrays.  The host callback
`try_expand_memory` is modelled as the script `grants`: the response to the
`k`-th resize request is `grants[k]` — `some b` means the host returns a
new buffer at base address `b`, `none` means it returns `NULL`
(refusal); `calls` counts the requests made so far.  `base` is the current
base address of the buffer, which may change on every granted resize. -/
structure Store where
  grants : List (Option Nat)
  calls : Nat
  base : Nat
  memLen : Nat
  memory : List Nat
  used : Nat
  objects : List Entry
  symbols : List Nat
  values : List Nat
  deriving DecidableEq, Repr

attribute [ext] Store

/-- The state visible through the API: everything except the host-callback
bookkeeping (`grants`, `calls`).  The base address is included: a refused
resize returns `NULL` and leaves the buffer where it was. -/
def Store.visible (s : Store) :
    Nat × Nat × List Nat × Nat × List Entry × List Nat × List Nat :=
  (s.base, s.memLen, s.memory, s.used, s.objects, s.symbols, s.values)

/-- The encoded bytes of an entry, read out of the arena. -/
def resolveBytes (s : Store) (e : Entry) : List Nat :=
  extract s.memory e.offset e.size

/-- Modelled from the spec: `resolve(handle)` — the current bytes of a live
handle, `none` for a dead or unknown handle. -/
def resolve (s : Store) (h : Nat) : Option (List Nat) :=
  match s.objects[h]? with
  | some e => if e.live = true then some (resolveBytes s e) else none
  | none => none

/-- The type tag of a live handle. -/
def resolveTag (s : Store) (h : Nat) : Option CoraType :=
  match s.objects[h]? with
  | some e => if e.live = true then some e.tag else none
  | none => none

/-- Two handle-table entries occupy disjoint arena ranges. -/
def disjointE (a b : Entry) : Prop :=
  a.offset + a.size ≤ b.offset ∨ b.offset + b.size ≤ a.offset

instance (a b : Entry) : Decidable (disjointE a b) := by
  unfold disjointE; infer_instance

/-- A (possibly absent) entry lies inside the allocated region when
live. -/
def entryOK (o : Option Entry) (used : Nat) : Prop :=
  match o with
  | some e => e.live = true → e.offset + e.size ≤ used
  | none => True

instance (o : Option Entry) (used : Nat) : Decidable (entryOK o used) := by
  cases o <;> unfold entryOK <;> infer_instance

/-- Two (possibly absent) entries are disjoint when both live. -/
def entriesDisj : Option Entry → Option Entry → Prop
  | some a, some b => a.live = true → b.live = true → disjointE a b
  | _, _ => True

instance (o1 o2 : Option Entry) : Decidable (entriesDisj o1 o2) := by
  cases o1 <;> cases o2 <;> unfold entriesDisj <;> infer_instance

/-- Well-formedness of a store: the arena byte list has the declared
length, the allocated high-water mark fits, every live entry lies inside
the allocated region, and live entries occupy pairwise disjoint ranges. -/
def WF (s : Store) : Prop :=
  s.memory.length = s.memLen ∧
  s.used ≤ s.memLen ∧
  (∀ i : Nat, i < s.objects.length → entryOK s.objects[i]? s.used) ∧
  ∀ i : Nat, i < s.objects.length → ∀ j : Nat, j < s.objects.length →
    i ≠ j → entriesDisj s.objects[i]? s.objects[j]?

instance (s : Store) : Decidable (WF s) := by
  unfold WF; infer_instance

/-- Modelled from the spec (§4.1) and the documentation of
`try_expand_memory` in `cora.h`: request the buffer be resized to `newLen`
bytes; on success the first `min(old_len, new_len)` bytes are preserved at
their relative offsets and the (possibly new) base address is returned; on
refusal the callback returns `NULL` and nothing visible changes.  A
request with `newLen = 0` frees the buffer, which invalidates every
handle. -/
def tryExpand (s : Store) (newLen : Nat) : Option Nat × Store :=
  if newLen = 0 then
    (some 0,
      { s with calls := s.calls + 1, base := 0, memLen := 0, memory := [],
               used := 0,
               objects := s.objects.map fun e => { e with live := false } })
  else
    match (s.grants[s.calls]?).getD none with
    | none => (none, { s with calls := s.calls + 1 })
    | some b =>
      (some b,
        { s with calls := s.calls + 1, base := b, memLen := newLen,
                 memory := s.memory.take (min s.memLen newLen) ++
                   List.replicate (newLen - min s.memLen newLen) 0 })

/-- Modelled from the spec: make sure at least `need` arena bytes exist,
growing (with doubling, §4.4) through the host callback when necessary. -/
def ensureCapacity (s : Store) (need : Nat) : Bool × Store :=
  if need ≤ s.memLen then (true, s)
  else
    match tryExpand s (max need (2 * s.memLen)) with
    | (none, s1) => (false, s1)
    | (some _, s1) => (true, s1)

/-- Modelled from the spec: `allocate(size, type_tag)` — reserve a fresh
handle for a payload of `bs.length` bytes, request Arena growth if needed,
write the initial bytes; on refusal no handle is created and the prior
state is kept. -/
def allocObj (s : Store) (bs : List Nat) (tag : CoraType) :
    Option Nat × Store :=
  match ensureCapacity s (s.used + bs.length) with
  | (false, s1) => (none, s1)
  | (true, s1) =>
    (some s1.objects.length,
      { s1 with
        objects := s1.objects ++ [⟨s1.used, bs.length, tag, true⟩],
        used := s1.used + bs.length,
        memory := writeBytes s1.memory s1.used bs })

/-- Modelled from the spec: write a live object's payload bytes through its
handle (the size must match; anything else is defensively a no-op). -/
def writeObj (s : Store) (h : Nat) (bs : List Nat) : Store :=
  match s.objects[h]? with
  | some e =>
    if e.live = true ∧ bs.length = e.size then
      { s with memory := writeBytes s.memory e.offset bs }
    else s
  | none => s

/-- Modelled from the spec: `resize(handle, new_size)` — shrink in place,
or relocate the payload (updating the table entry, not the handle) to a
freshly allocated range, preserving the old bytes and zero-filling the
growth; fails only when Arena growth is refused, leaving prior state. -/
def objResize (s : Store) (h : Nat) (newSize : Nat) : Bool × Store :=
  match s.objects[h]? with
  | none => (false, s)
  | some e =>
    if e.live = true then
      if newSize ≤ e.size then
        (true,
          { s with objects := s.objects.set h { e with size := newSize } })
      else
        match ensureCapacity s (s.used + newSize) with
        | (false, s1) => (false, s1)
        | (true, s1) =>
          (true,
            { s1 with
              objects := s1.objects.set h ⟨s1.used, newSize, e.tag, true⟩,
              used := s1.used + newSize,
              memory := writeBytes s1.memory s1.used
                (extract s1.memory e.offset e.size ++
                  List.replicate (newSize - e.size) 0) })
    else (false, s)

/-- Modelled from the spec: `free(handle)` — mark the handle dead. -/
def freeObj (s : Store) (h : Nat) : Store :=
  match s.objects[h]? with
  | some e => { s with objects := s.objects.set h { e with live := false } }
  | none => s

/-! ## Scalar encodings and constructors -/

/-- 64-bit two's-complement little-endian encoding of a C `int64_t`. -/
def encInt64 (x : Int) : List Nat :=
  encLE 8 (x % ((2 : Int) ^ 64)).toNat

/-- Decode a 64-bit two's-complement payload. -/
def decInt64 (bs : List Nat) : Int :=
  if decLE 8 bs < 2 ^ 63 then (decLE 8 bs : Int)
  else (decLE 8 bs : Int) - 2 ^ 64

/-- Length-prefixed string payload. -/
def encString (x : List Nat) : List Nat :=
  encLE 8 x.length ++ x

/-- Decode a length-prefixed string payload. -/
def decString (bs : List Nat) : List Nat :=
  extract bs 8 (decLE 8 (extract bs 0 8))

/-- Decode a one-byte bool payload. -/
def decBool (bs : List Nat) : Option Bool :=
  match bs with
  | [0] => some false
  | [1] => some true
  | _ => none

/-- `cora_int`: allocate a `CORA_INT` initialized to `x`; `some h` models
`true` plus the out-parameter, `none` models the `CORA_NO_MEMORY`
failure. -/
def cora_int (s : Store) (x : Int) : Option Nat × Store :=
  allocObj s (encInt64 x) CoraType.int

/-- `cora_float`: allocate a `CORA_FLOAT`.  The C `double` is carried as
its 64-bit IEEE-754 bit pattern `bits < 2 ^ 64`, which is what a bit-exact
store and reload preserves. -/
def cora_float (s : Store) (bits : Nat) : Option Nat × Store :=
  allocObj s (encLE 8 bits) CoraType.float

/-- `cora_char`: allocate a `CORA_CHAR` holding a `uint32_t` code point. -/
def cora_char (s : Store) (x : Nat) : Option Nat × Store :=
  allocObj s (encLE 4 x) CoraType.char

/-- `cora_bool`: allocate a `CORA_BOOL`. -/
def cora_bool (s : Store) (b : Bool) : Option Nat × Store :=
  allocObj s [if b then 1 else 0] CoraType.bool

/-- `cora_string`: allocate a `CORA_STRING` from the byte string `x`. -/
def cora_string (s : Store) (x : List Nat) : Option Nat × Store :=
  allocObj s (encString x) CoraType.string

/-! ## List container

Modelled from the spec (§4.4): a list is a tagged object whose payload is
a logical length (8-byte prefix) followed by `capacity` slots of 8 bytes,
each holding an element handle; the capacity is determined by the payload
size, `size = 8 + 8 * capacity`. -/

/-- Encode consecutive 8-byte handle slots. -/
def encSlots : List Nat → List Nat
  | [] => []
  | x :: r => encLE 8 x ++ encSlots r

/-- Encode a full list payload with the given capacity. -/
def encListPayload (cap : Nat) (xs : List Nat) : List Nat :=
  encLE 8 xs.length ++ encSlots xs ++ List.replicate (8 * (cap - xs.length)) 0

/-- Decode `count` consecutive 8-byte slots starting at `off`. -/
def decSlots (bs : List Nat) : Nat → Nat → List Nat
  | 0, _ => []
  | k + 1, off => decLE 8 (extract bs off 8) :: decSlots bs k (off + 8)

/-- Decode a list object: its capacity and its elements. -/
def listDecode (s : Store) (l : Nat) : Option (Nat × List Nat) :=
  match s.objects[l]? with
  | some e =>
    if e.live = true ∧ e.tag = CoraType.list ∧ 8 ≤ e.size ∧
        (e.size - 8) % 8 = 0 then
      if decLE 8 (extract (resolveBytes s e) 0 8) ≤ (e.size - 8) / 8 then
        some ((e.size - 8) / 8,
          decSlots (resolveBytes s e) (decLE 8 (extract (resolveBytes s e) 0 8)) 8)
      else none
    else none
  | none => none

/-- Insert at position `i`, clamping `i` to the length (append at end). -/
def insertAt : List Nat → Nat → Nat → List Nat
  | xs, 0, x => x :: xs
  | [], _ + 1, x => [x]
  | y :: ys, i + 1, x => y :: insertAt ys i x

/-- `cora_list`: allocate an empty `CORA_LIST`. -/
def cora_list (s : Store) : Option Nat × Store :=
  allocObj s (encListPayload 0 []) CoraType.list

/-- `cora_list_append`: append `x` to list `l`, growing (doubling) the
payload through `objResize` when the capacity is exhausted.  The result
carries the `bool`, the state, and the in/out handle `size_t* l`. -/
def cora_list_append (s : Store) (l : Nat) (x : Nat) : Bool × Store × Nat :=
  match listDecode s l with
  | none => (false, s, l)
  | some (cap, xs) =>
    if xs.length < cap then
      (true, writeObj s l (encListPayload cap (xs ++ [x])), l)
    else
      match objResize s l (8 + 8 * max 1 (2 * cap)) with
      | (false, s1) => (false, s1, l)
      | (true, s1) =>
        (true, writeObj s1 l (encListPayload (max 1 (2 * cap)) (xs ++ [x])), l)

/-- `cora_list_insert`: insert `x` into `l` at `index`, shifting later
elements; an index past the end is clamped to append-at-end. -/
def cora_list_insert (s : Store) (l : Nat) (x : Nat) (index : Nat) :
    Bool × Store × Nat :=
  match listDecode s l with
  | none => (false, s, l)
  | some (cap, xs) =>
    if xs.length < cap then
      (true, writeObj s l (encListPayload cap (insertAt xs index x)), l)
    else
      match objResize s l (8 + 8 * max 1 (2 * cap)) with
      | (false, s1) => (false, s1, l)
      | (true, s1) =>
        (true,
          writeObj s1 l (encListPayload (max 1 (2 * cap)) (insertAt xs index x)),
          l)

/-- `cora_list_del`: delete the element at `index`; past-the-end indices do
nothing.  Declared `void` in `cora.h`, so only the state and the in/out
handle come back; the parameter `x` is as declared in the header. -/
def cora_list_del (s : Store) (l : Nat) (x : Nat) (index : Nat) :
    Store × Nat :=
  match listDecode s l with
  | none => (s, l)
  | some (cap, xs) =>
    if index < xs.length then
      (writeObj s l (encListPayload cap (xs.eraseIdx index)), l)
    else (s, l)

/-- `cora_list_length`. -/
def cora_list_length (s : Store) (l : Nat) : Nat :=
  match listDecode s l with
  | some (_, xs) => xs.length
  | none => 0

/-- `cora_list_items`: the read-only view of the items. -/
def cora_list_items (s : Store) (l : Nat) : Option (List Nat) :=
  (listDecode s l).map fun p => p.2

/-! ## Map container

Modelled from the spec (§4.5): a map is a tagged object holding parallel
sequences of interned name strings (referenced by handle) and value
handles; payload is an 8-byte length prefix followed by `capacity`
16-byte slots of `(name_handle, value_handle)`. -/

/-- Encode consecutive 16-byte pair slots. -/
def encPairSlots : List (Nat × Nat) → List Nat
  | [] => []
  | p :: r => encLE 8 p.1 ++ encLE 8 p.2 ++ encPairSlots r

/-- Encode a full map payload with the given capacity. -/
def encMapPayload (cap : Nat) (ps : List (Nat × Nat)) : List Nat :=
  encLE 8 ps.length ++ encPairSlots ps ++
    List.replicate (16 * (cap - ps.length)) 0

/-- Decode `count` consecutive 16-byte pair slots starting at `off`. -/
def decPairSlots (bs : List Nat) : Nat → Nat → List (Nat × Nat)
  | 0, _ => []
  | k + 1, off =>
    (decLE 8 (extract bs off 8), decLE 8 (extract bs (off + 8) 8)) ::
      decPairSlots bs k (off + 16)

/-- Decode a map object: its capacity and its `(name_handle, value)`
pairs. -/
def mapDecode (s : Store) (m : Nat) : Option (Nat × List (Nat × Nat)) :=
  match s.objects[m]? with
  | some e =>
    if e.live = true ∧ e.tag = CoraType.map ∧ 8 ≤ e.size ∧
        (e.size - 8) % 16 = 0 then
      if decLE 8 (extract (resolveBytes s e) 0 8) ≤ (e.size - 8) / 16 then
        some ((e.size - 8) / 16,
          decPairSlots (resolveBytes s e)
            (decLE 8 (extract (resolveBytes s e) 0 8)) 8)
      else none
    else none
  | none => none

/-- The interned name a handle refers to: a live `CORA_STRING` object,
decoded. -/
def nameOf (s : Store) (h : Nat) : Option (List Nat) :=
  match s.objects[h]? with
  | some e =>
    if e.live = true ∧ e.tag = CoraType.string then
      some (decString (resolveBytes s e))
    else none
  | none => none

/-- Index of the pair whose interned name equals `name`. -/
def findPairIdx (s : Store) (ps : List (Nat × Nat)) (name : List Nat) :
    Option Nat :=
  match ps with
  | [] => none
  | p :: rest =>
    if nameOf s p.1 = some name then some 0
    else (findPairIdx s rest name).map fun i => i + 1

/-- Replace the value of the `i`-th pair. -/
def setPairVal : List (Nat × Nat) → Nat → Nat → List (Nat × Nat)
  | [], _, _ => []
  | p :: ps, 0, v => (p.1, v) :: ps
  | p :: ps, i + 1, v => p :: setPairVal ps i v

/-- `cora_map`: allocate an empty `CORA_MAP`. -/
def cora_map (s : Store) : Option Nat × Store :=
  allocObj s (encMapPayload 0 []) CoraType.map

/-- `cora_map_insert`: if `name` is already present, replace its value
handle in place (the old value handle is not freed); otherwise reserve all
needed memory up front, intern the name as a fresh string object, grow the
pair array if it is at capacity, and append the new pair.  Fails only when
the host refuses the growth request, leaving prior state. -/
def cora_map_insert (s : Store) (m : Nat) (name : List Nat) (v : Nat) :
    Bool × Store :=
  match mapDecode s m with
  | none => (false, s)
  | some (cap, ps) =>
    match findPairIdx s ps name with
    | some i => (true, writeObj s m (encMapPayload cap (setPairVal ps i v)))
    | none =>
      match ensureCapacity s (s.used + (8 + name.length) +
          (if ps.length < cap then 0 else 8 + 16 * max 1 (2 * cap))) with
      | (false, s1) => (false, s1)
      | (true, s1) =>
        match allocObj s1 (encString name) CoraType.string with
        | (none, s2) => (false, s2)
        | (some hn, s2) =>
          if ps.length < cap then
            (true, writeObj s2 m (encMapPayload cap (ps ++ [(hn, v)])))
          else
            match objResize s2 m (8 + 16 * max 1 (2 * cap)) with
            | (false, s3) => (false, s3)
            | (true, s3) =>
              (true,
                writeObj s3 m
                  (encMapPayload (max 1 (2 * cap)) (ps ++ [(hn, v)])))

/-- `cora_map_del`: remove the pair named `name`; a missing name does
nothing.  Declared `void` in `cora.h`. -/
def cora_map_del (s : Store) (m : Nat) (name : List Nat) : Store :=
  match mapDecode s m with
  | none => s
  | some (cap, ps) =>
    match findPairIdx s ps name with
    | some i => writeObj s m (encMapPayload cap (ps.eraseIdx i))
    | none => s

/-- `cora_map_length`. -/
def cora_map_length (s : Store) (m : Nat) : Nat :=
  match mapDecode s m with
  | some (_, ps) => ps.length
  | none => 0

/-- `cora_map_pairs`: the read-only view, names resolved to their bytes. -/
def cora_map_pairs (s : Store) (m : Nat) :
    Option (List (Option (List Nat) × Nat)) :=
  (mapDecode s m).map fun p => p.2.map fun q => (nameOf s q.1, q.2)

/-- Value bound to `name` in map `m`. -/
def mapLookup (s : Store) (m : Nat) (name : List Nat) : Option Nat :=
  match mapDecode s m with
  | none => none
  | some (_, ps) =>
    match findPairIdx s ps name with
    | some i => (ps[i]?).map fun p => p.2
    | none => none

/-! ## Native registry

Modelled from the spec (§4.6): `cora_define_function` and
`cora_define_module` take no `cora_state*` in the header, so the registry
is a standalone table mapping (optionally module-qualified) names to
function pointers; pointers are modelled as opaque identifiers. -/

/-- The native registry: `(qualified_name, function_pointer)` entries. -/
abbrev Registry := List (String × Nat)

/-- `cora_define_function`: insert or overwrite the binding for `name`. -/
def defineFunction (r : Registry) (name : String) (f : Nat) : Registry :=
  match r with
  | [] => [(name, f)]
  | p :: rest =>
    if p.1 = name then (name, f) :: rest
    else p :: defineFunction rest name f

/-- Name lookup in the registry. -/
def lookupFunction (r : Registry) (name : String) : Option Nat :=
  match r with
  | [] => none
  | p :: rest => if p.1 = name then some p.2 else lookupFunction rest name

/-- Number of registry entries with the given name. -/
def countName (r : Registry) (name : String) : Nat :=
  r.countP fun p => p.1 == name

/-- `module.function` qualified name. -/
def qualify (moduleName fname : String) : String :=
  moduleName ++ "." ++ fname

/-- `cora_define_module`: register every definition of the module under
its qualified name. -/
def defineModule (r : Registry) (moduleName : String) :
    List (String × Nat) → Registry
  | [] => r
  | d :: rest =>
    defineModule (defineFunction r (qualify moduleName d.1) d.2)
      moduleName rest

/-! ## Operation traces

The sequences of claim C1: allocations, writes through handles, object
resizes, Arena growth events, and frees.  The ghost list records, for each
handle, the bytes last written through it (`none` once freed); its updates
are driven purely by the operation's own arguments. -/

/-- One store operation of a trace. -/
inductive Op where
  | alloc (tag : CoraType) (bs : List Nat)
  | write (h : Nat) (bs : List Nat)
  | resize (h : Nat) (newSize : Nat)
  | grow (newLen : Nat)
  | free (h : Nat)

/-- Per-handle record of the bytes last written through the handle. -/
abbrev Ghost := List (Option (List Nat))

/-- The specified content transform of `resize`: keep a prefix, zero-fill
growth. -/
def adjustBytes (bs : List Nat) (n : Nat) : List Nat :=
  bs.take n ++ List.replicate (n - bs.length) 0

/-- One trace step: the store operation next to its ghost bookkeeping. -/
def stepT (sg : Store × Ghost) (op : Op) : Store × Ghost :=
  match op with
  | .alloc tag bs =>
    match allocObj sg.1 bs tag with
    | (some _, s1) => (s1, sg.2 ++ [some bs])
    | (none, s1) => (s1, sg.2)
  | .write h bs =>
    match sg.1.objects[h]? with
    | some e =>
      if e.live = true ∧ bs.length = e.size then
        (writeObj sg.1 h bs, sg.2.set h (some bs))
      else (sg.1, sg.2)
    | none => (sg.1, sg.2)
  | .resize h n =>
    match objResize sg.1 h n with
    | (true, s1) =>
      (s1,
        match sg.2[h]? with
        | some (some bs) => sg.2.set h (some (adjustBytes bs n))
        | _ => sg.2)
    | (false, s1) => (s1, sg.2)
  | .grow n =>
    if sg.1.memLen < n then ((tryExpand sg.1 n).2, sg.2) else (sg.1, sg.2)
  | .free h => (freeObj sg.1 h, sg.2.set h none)

/-- Run a trace. -/
def runT (sg : Store × Ghost) (ops : List Op) : Store × Ghost :=
  ops.foldl stepT sg

/-- The ghost record for one handle matches what the handle resolves
to. -/
def ghostOK (s : Store) (g : Ghost) (h : Nat) : Prop :=
  match s.objects[h]? with
  | some e => e.live = true → g[h]? = some (some (resolveBytes s e))
  | none => True

instance (s : Store) (g : Ghost) (h : Nat) : Decidable (ghostOK s g h) := by
  unfold ghostOK
  cases s.objects[h]? <;> infer_instance

/-- The simulation invariant: the store is well formed, the ghost list is
aligned with the handle table, and every live handle resolves to exactly
the bytes the ghost records for it. -/
def Inv (s : Store) (g : Ghost) : Prop :=
  WF s ∧ g.length = s.objects.length ∧
  ∀ h : Nat, h < s.objects.length → ghostOK s g h

instance (s : Store) (g : Ghost) : Decidable (Inv s g) := by
  unfold Inv; infer_instance

/-! ## Concrete stores used to instantiate the claims -/

/-- §6 initialization: the host supplies the resize callback (here its
grant script); every other field is runtime-owned and starts empty. -/
def initStore (grants : List (Option Nat)) : Store :=
  { grants := grants, calls := 0, base := 0, memLen := 0, memory := [],
    used := 0, objects := [], symbols := [], values := [] }

/-- A store whose host refuses every growth request. -/
def refuseStore : Store := initStore []

/-- A store holding one full list `[7]` (capacity 1) and one int object;
the host grants growth at fresh base addresses. -/
def listStore : Store :=
  { grants := [some 99, some 98], calls := 0, base := 1, memLen := 24,
    memory := encListPayload 1 [7] ++ encInt64 5, used := 24,
    objects := [⟨0, 16, CoraType.list, true⟩, ⟨16, 8, CoraType.int, true⟩],
    symbols := [], values := [] }

/-- `listStore` with a refusing host. -/
def fullListRefuse : Store :=
  { listStore with grants := [] }

/-- A store holding a list `[7, 8]` with spare capacity (3). -/
def roomListStore : Store :=
  { grants := [], calls := 0, base := 0, memLen := 32,
    memory := encListPayload 3 [7, 8], used := 32,
    objects := [⟨0, 32, CoraType.list, true⟩], symbols := [],
    values := [] }

/-- A store holding a full map (capacity 1) binding the interned name
`"a"` (byte `97`, handle 1) to handle 2, plus the name string and an int
object. -/
def mapStore : Store :=
  { grants := [some 97, some 96], calls := 0, base := 2, memLen := 41,
    memory := encMapPayload 1 [(1, 2)] ++ encString [97] ++ encInt64 5,
    used := 41,
    objects := [⟨0, 24, CoraType.map, true⟩,
      ⟨24, 9, CoraType.string, true⟩, ⟨33, 8, CoraType.int, true⟩],
    symbols := [], values := [] }

/-- A trace with allocations, writes, an object resize, an arena growth
event and a free; the host moves the base address on every grant. -/
def stabilityOps : List Op :=
  [Op.alloc CoraType.int [1, 2, 3], Op.alloc CoraType.string [9, 9],
   Op.grow 64, Op.write 0 [4, 5, 6], Op.resize 1 8, Op.free 1]

/-- Initial store for the stability trace. -/
def stabilityStore : Store := initStore [some 11, some 12, some 13, some 14]

/-- A store with three arena bytes and one granting host response. -/
def growStore : Store :=
  { grants := [some 5], calls := 0, base := 0, memLen := 3,
    memory := [1, 2, 3], used := 3, objects := [], symbols := [],
    values := [] }

/-! ## Theorems -/

@[simp] theorem encLE_length (w n : Nat) : (encLE w n).length = w := by
  induction w generalizing n with
  | zero => rfl
  | succ w ih => simp [encLE, ih]

theorem decLE_encLE (w n : Nat) : decLE w (encLE w n) = n % 256 ^ w := by
  induction w generalizing n with
  | zero => simp [encLE, decLE, Nat.mod_one]
  | succ w ih =>
    have h : (256 : Nat) ^ (w + 1) = 256 * 256 ^ w := by ring
    rw [encLE, decLE, ih, h, Nat.mod_mul]

theorem decLE_encLE_of_lt {w n : Nat} (h : n < 256 ^ w) :
    decLE w (encLE w n) = n := by
  rw [decLE_encLE, Nat.mod_eq_of_lt h]

@[simp] theorem extract_getElem? (mem : List Nat) (off len i : Nat) :
    (extract mem off len)[i]? = if i < len then mem[off + i]? else none := by
  unfold extract
  by_cases h : i < len
  · rw [List.getElem?_take_of_lt h, List.getElem?_drop, if_pos h]
  · rw [if_neg h]
    apply List.getElem?_eq_none
    have := List.length_take_le len (mem.drop off)
    omega

theorem extract_length_of_le {mem : List Nat} {off len : Nat}
    (h : off + len ≤ mem.length) : (extract mem off len).length = len := by
  unfold extract
  rw [List.length_take, List.length_drop]
  omega

theorem writeBytes_length {mem bs : List Nat} {off : Nat}
    (h : off + bs.length ≤ mem.length) :
    (writeBytes mem off bs).length = mem.length := by
  unfold writeBytes
  rw [List.length_append, List.length_append, List.length_take,
    List.length_drop]
  omega

theorem writeBytes_getElem? {mem bs : List Nat} {off : Nat}
    (h : off + bs.length ≤ mem.length) (i : Nat) :
    (writeBytes mem off bs)[i]? =
      if i < off then mem[i]?
      else if i < off + bs.length then bs[i - off]?
      else mem[i]? := by
  have hto : (mem.take off).length = off := by
    rw [List.length_take]; omega
  have hl : (mem.take off ++ bs).length = off + bs.length := by
    rw [List.length_append, hto]
  unfold writeBytes
  rw [List.getElem?_append, List.getElem?_append, hl, hto]
  by_cases h1 : i < off
  · rw [if_pos (by omega), if_pos h1, if_pos h1, List.getElem?_take_of_lt h1]
  · by_cases h2 : i < off + bs.length
    · rw [if_pos h2, if_neg h1, if_neg h1, if_pos h2]
    · rw [if_neg h2, if_neg h1, if_neg h2, List.getElem?_drop]
      congr 1
      omega

theorem extract_writeBytes_self {mem bs : List Nat} {off : Nat}
    (h : off + bs.length ≤ mem.length) :
    extract (writeBytes mem off bs) off bs.length = bs := by
  apply List.ext_getElem?
  intro i
  rw [extract_getElem?]
  by_cases hi : i < bs.length
  · rw [if_pos hi, writeBytes_getElem? h, if_neg (by omega), if_pos (by omega)]
    congr 1
    omega
  · rw [if_neg hi, eq_comm]
    exact List.getElem?_eq_none (by omega)

theorem extract_writeBytes_disjoint {mem bs : List Nat} {off a n : Nat}
    (h : off + bs.length ≤ mem.length)
    (hd : a + n ≤ off ∨ off + bs.length ≤ a) :
    extract (writeBytes mem off bs) a n = extract mem a n := by
  apply List.ext_getElem?
  intro i
  rw [extract_getElem?, extract_getElem?]
  by_cases hi : i < n
  · rw [if_pos hi, if_pos hi, writeBytes_getElem? h]
    rcases hd with hd | hd
    · rw [if_pos (by omega)]
    · rw [if_neg (by omega), if_neg (by omega)]
  · rw [if_neg hi, if_neg hi]

theorem extract_append_of_le {mem post : List Nat} {a n : Nat}
    (h : a + n ≤ mem.length) :
    extract (mem ++ post) a n = extract mem a n := by
  apply List.ext_getElem?
  intro i
  rw [extract_getElem?, extract_getElem?]
  by_cases hi : i < n
  · rw [if_pos hi, if_pos hi, List.getElem?_append, if_pos (by omega)]
  · rw [if_neg hi, if_neg hi]

theorem decInt64_encInt64 {x : Int} (h1 : -(2 ^ 63) ≤ x) (h2 : x < 2 ^ 63) :
    decInt64 (encInt64 x) = x := by
  unfold decInt64 encInt64
  rw [decLE_encLE_of_lt (by omega)]
  split <;> omega

theorem decString_encString {x : List Nat} (h : x.length < 2 ^ 64) :
    decString (encString x) = x := by
  unfold decString encString
  have h8 : (encLE 8 x.length).length = 8 := encLE_length 8 x.length
  have h1 : extract (encLE 8 x.length ++ x) 0 8 = encLE 8 x.length := by
    apply List.ext_getElem?
    intro i
    rw [extract_getElem?]
    by_cases hi : i < 8
    · rw [if_pos hi, Nat.zero_add, List.getElem?_append, if_pos (by omega)]
    · rw [if_neg hi, eq_comm]
      exact List.getElem?_eq_none (by omega)
  rw [h1, decLE_encLE_of_lt (by omega)]
  apply List.ext_getElem?
  intro i
  rw [extract_getElem?]
  by_cases hi : i < x.length
  · rw [if_pos hi, List.getElem?_append, if_neg (by omega)]
    congr 1
    omega
  · rw [if_neg hi, eq_comm]
    exact List.getElem?_eq_none (by omega)

/-! ## Basic facts about the store operations -/

theorem getElem?_some_lt {α : Type} {l : List α} {i : Nat} {e : α}
    (h : l[i]? = some e) : i < l.length := by
  rcases List.getElem?_eq_some.mp h with ⟨hlt, -⟩
  exact hlt

theorem getElem?_some_eq {α : Type} {l : List α} {i : Nat} {e : α}
    (h : l[i]? = some e) (hi : i < l.length) : l[i] = e :=
  List.getElem_eq_iff.mpr h

theorem WF_bound {s : Store} (hwf : WF s) {h : Nat} {e : Entry}
    (he : s.objects[h]? = some e) (hl : e.live = true) :
    e.offset + e.size ≤ s.used := by
  obtain ⟨-, -, hb, -⟩ := hwf
  have hh := getElem?_some_lt he
  have := hb h hh
  unfold entryOK at this
  rw [he] at this
  exact this hl

theorem WF_disj {s : Store} (hwf : WF s) {h1 h2 : Nat} {e1 e2 : Entry}
    (h1e : s.objects[h1]? = some e1) (h2e : s.objects[h2]? = some e2)
    (hne : h1 ≠ h2) (hl1 : e1.live = true) (hl2 : e2.live = true) :
    disjointE e1 e2 := by
  obtain ⟨-, -, -, hd⟩ := hwf
  have hh1 := getElem?_some_lt h1e
  have hh2 := getElem?_some_lt h2e
  have := hd h1 hh1 h2 hh2 hne
  unfold entriesDisj at this
  rw [h1e, h2e] at this
  exact this hl1 hl2

theorem WF_memory_length {s : Store} (hwf : WF s) :
    s.memory.length = s.memLen := hwf.1

theorem WF_used_le {s : Store} (hwf : WF s) : s.used ≤ s.memLen := hwf.2.1

theorem resolveBytes_length {s : Store} {e : Entry}
    (h : e.offset + e.size ≤ s.memory.length) :
    (resolveBytes s e).length = e.size :=
  extract_length_of_le h

/-- A refused resize changes nothing but the call counter. -/
theorem tryExpand_none {s : Store} {n : Nat} {s1 : Store}
    (h : tryExpand s n = (none, s1)) :
    s1 = { s with calls := s.calls + 1 } := by
  unfold tryExpand at h
  by_cases h0 : n = 0
  · rw [if_pos h0] at h
    simp at h
  · rw [if_neg h0] at h
    cases hg : (s.grants[s.calls]?).getD none with
    | none =>
      rw [hg] at h
      simpa using h.symm
    | some b =>
      rw [hg] at h
      simp at h

/-- A granted growth request: the new length is as requested, the old
bytes are preserved as a prefix, and only arena fields (plus the host
bookkeeping) change. -/
theorem tryExpand_some {s : Store} {n : Nat} {b : Nat} {s1 : Store}
    (h0 : n ≠ 0) (h : tryExpand s n = (some b, s1)) :
    s1.memLen = n ∧
    s1.memory = s.memory.take (min s.memLen n) ++
      List.replicate (n - min s.memLen n) 0 ∧
    s1.used = s.used ∧ s1.objects = s.objects ∧
    s1.symbols = s.symbols ∧ s1.values = s.values ∧
    s1.grants = s.grants ∧ s1.calls = s.calls + 1 := by
  unfold tryExpand at h
  rw [if_neg h0] at h
  cases hg : (s.grants[s.calls]?).getD none with
  | none =>
    rw [hg] at h
    simp at h
  | some c =>
    rw [hg] at h
    obtain ⟨-, rfl⟩ := Prod.mk.injEq .. ▸ And.intro (congrArg Prod.fst h) (congrArg Prod.snd h)
    simp

/-- A failed `ensureCapacity` changes nothing but the call counter. -/
theorem ensureCapacity_false {s : Store} {need : Nat} {s1 : Store}
    (h : ensureCapacity s need = (false, s1)) :
    s1 = { s with calls := s.calls + 1 } := by
  unfold ensureCapacity at h
  by_cases hle : need ≤ s.memLen
  · rw [if_pos hle] at h
    simp at h
  · rw [if_neg hle] at h
    cases hte : tryExpand s (max need (2 * s.memLen)) with
    | mk r s2 =>
      cases r with
      | none =>
        rw [hte] at h
        cases h
        exact tryExpand_none hte
      | some b =>
        rw [hte] at h
        simp at h

/-- A successful `ensureCapacity`: capacity now suffices, the allocated
region and its bytes survive, and everything except arena fields and the
host bookkeeping is untouched. -/
theorem ensureCapacity_true {s : Store} {need : Nat} {s1 : Store}
    (hm : s.memory.length = s.memLen)
    (h : ensureCapacity s need = (true, s1)) :
    need ≤ s1.memLen ∧ s.memLen ≤ s1.memLen ∧
    s1.memory.length = s1.memLen ∧
    s1.used = s.used ∧ s1.objects = s.objects ∧
    s1.symbols = s.symbols ∧ s1.values = s.values ∧
    ∀ a k, a + k ≤ s.memLen → extract s1.memory a k = extract s.memory a k := by
  unfold ensureCapacity at h
  by_cases hle : need ≤ s.memLen
  · rw [if_pos hle] at h
    cases h
    exact ⟨hle, le_refl _, hm, rfl, rfl, rfl, rfl, fun a k _ => rfl⟩
  · rw [if_neg hle] at h
    cases hte : tryExpand s (max need (2 * s.memLen)) with
    | mk r s2 =>
      cases r with
      | none =>
        rw [hte] at h
        simp at h
      | some b =>
        rw [hte] at h
        cases h
        have hn0 : max need (2 * s.memLen) ≠ 0 := by
          have : s.memLen < need := by omega
          have := le_max_left need (2 * s.memLen)
          omega
        obtain ⟨hL, hM, hU, hO, hS, hV, -, -⟩ := tryExpand_some hn0 hte
        have hmin : min s.memLen (max need (2 * s.memLen)) = s.memLen := by
          have := le_max_left need (2 * s.memLen)
          omega
        have htk : s.memory.take (min s.memLen (max need (2 * s.memLen))) =
            s.memory := by
          rw [hmin, ← hm]
          exact List.take_length _
        refine ⟨by omega, by omega, ?_, hU, hO, hS, hV, ?_⟩
        · rw [hM, htk, List.length_append, List.length_replicate, hm, hL]
          omega
        · intro a k hak
          rw [hM, htk]
          exact extract_append_of_le (by omega)

theorem extract_take {mem : List Nat} {off k n : Nat} (h : n ≤ k) :
    (extract mem off k).take n = extract mem off n := by
  unfold extract
  rw [List.take_take]
  congr 1
  omega

theorem getElem?_append_single {α : Type} (l : List α) (a : α) (i : Nat) :
    (l ++ [a])[i]? =
      if i < l.length then l[i]?
      else if i = l.length then some a else none := by
  rw [List.getElem?_append]
  by_cases hi : i < l.length
  · rw [if_pos hi, if_pos hi]
  · rw [if_neg hi, if_neg hi]
    by_cases hq : i = l.length
    · rw [if_pos hq, hq]
      simp
    · rw [if_neg hq]
      apply List.getElem?_eq_none
      simp only [List.length_cons, List.length_nil]
      omega

/-- `resolve` only looks at `objects` and `memory`. -/
theorem resolve_mem_update (s : Store) (M : List Nat) (h : Nat) :
    resolve { s with memory := M } h =
      match s.objects[h]? with
      | some e => if e.live = true then some (extract M e.offset e.size)
        else none
      | none => none := rfl

/-- Unfold `resolve` at a known table entry. -/
theorem resolve_of_entry {s : Store} {h : Nat} {e : Entry}
    (he : s.objects[h]? = some e) :
    resolve s h = if e.live = true then some (resolveBytes s e) else none := by
  unfold resolve
  rw [he]

/-- Unfold `resolve` at an absent table entry. -/
theorem resolve_of_none {s : Store} {h : Nat}
    (he : s.objects[h]? = none) : resolve s h = none := by
  unfold resolve
  rw [he]

/-- Unfold `resolveTag` at a known table entry. -/
theorem resolveTag_of_entry {s : Store} {h : Nat} {e : Entry}
    (he : s.objects[h]? = some e) :
    resolveTag s h = if e.live = true then some e.tag else none := by
  unfold resolveTag
  rw [he]

/-- A guarded write reduces to an in-place byte splice. -/
theorem writeObj_guard {s : Store} {h : Nat} {bs : List Nat} {e : Entry}
    (he : s.objects[h]? = some e) (hl : e.live = true)
    (hsz : bs.length = e.size) :
    writeObj s h bs = { s with memory := writeBytes s.memory e.offset bs } := by
  unfold writeObj
  rw [he]
  exact if_pos ⟨hl, hsz⟩

/-- Writing through a live handle makes it resolve to the written bytes. -/
theorem writeObj_resolve_self {s : Store} {h : Nat} {bs : List Nat}
    {e : Entry} (hwf : WF s) (he : s.objects[h]? = some e)
    (hl : e.live = true) (hsz : bs.length = e.size) :
    resolve (writeObj s h bs) h = some bs := by
  rw [writeObj_guard he hl hsz]
  have hobj : ({ s with memory := writeBytes s.memory e.offset bs } :
      Store).objects[h]? = some e := he
  rw [resolve_of_entry hobj, if_pos hl]
  have hb := WF_bound hwf he hl
  have hml := WF_memory_length hwf
  have hu := WF_used_le hwf
  show some (extract (writeBytes s.memory e.offset bs) e.offset e.size) =
    some bs
  rw [← hsz, extract_writeBytes_self (by omega)]

/-- Writing through one live handle leaves every other handle's resolved
bytes unchanged. -/
theorem writeObj_frame {s : Store} {h : Nat} {bs : List Nat} {e : Entry}
    (hwf : WF s) (he : s.objects[h]? = some e) (hl : e.live = true)
    (hsz : bs.length = e.size) {h2 : Nat} (hne : h2 ≠ h) :
    resolve (writeObj s h bs) h2 = resolve s h2 := by
  rw [writeObj_guard he hl hsz]
  have hobj : ({ s with memory := writeBytes s.memory e.offset bs } :
      Store).objects[h2]? = s.objects[h2]? := rfl
  cases he2 : s.objects[h2]? with
  | none => rw [resolve_of_none (hobj.trans he2), resolve_of_none he2]
  | some e2 =>
    rw [resolve_of_entry (hobj.trans he2), resolve_of_entry he2]
    by_cases hl2 : e2.live = true
    · rw [if_pos hl2, if_pos hl2]
      have hdis := WF_disj hwf he2 he hne hl2 hl
      have hb := WF_bound hwf he hl
      have hb2 := WF_bound hwf he2 hl2
      have hml := WF_memory_length hwf
      have hu := WF_used_le hwf
      show some (extract (writeBytes s.memory e.offset bs) e2.offset e2.size) =
        some (extract s.memory e2.offset e2.size)
      unfold disjointE at hdis
      rw [extract_writeBytes_disjoint (by omega)]
      rcases hdis with hd | hd
      · left; omega
      · right; omega
    · rw [if_neg hl2, if_neg hl2]

/-- A guarded write does not touch the handle table or the allocation
fields. -/
theorem writeObj_fields {s : Store} {h : Nat} {bs : List Nat} {e : Entry}
    (he : s.objects[h]? = some e) (hl : e.live = true)
    (hsz : bs.length = e.size) :
    (writeObj s h bs).objects = s.objects ∧
    (writeObj s h bs).used = s.used ∧
    (writeObj s h bs).memLen = s.memLen ∧
    (writeObj s h bs).symbols = s.symbols ∧
    (writeObj s h bs).values = s.values ∧
    (writeObj s h bs).grants = s.grants ∧
    (writeObj s h bs).calls = s.calls := by
  rw [writeObj_guard he hl hsz]
  exact ⟨rfl, rfl, rfl, rfl, rfl, rfl, rfl⟩

/-- A guarded write preserves well-formedness. -/
theorem writeObj_WF {s : Store} {h : Nat} {bs : List Nat} {e : Entry}
    (hwf : WF s) (he : s.objects[h]? = some e) (hl : e.live = true)
    (hsz : bs.length = e.size) : WF (writeObj s h bs) := by
  rw [writeObj_guard he hl hsz]
  obtain ⟨hm, hu, hb, hd⟩ := hwf
  have hbnd := WF_bound ⟨hm, hu, hb, hd⟩ he hl
  exact ⟨by rw [show ({ s with memory := writeBytes s.memory e.offset bs } :
      Store).memory = writeBytes s.memory e.offset bs from rfl,
      writeBytes_length (by omega)]; exact hm, hu, hb, hd⟩

/-- A failed allocation changes nothing but the call counter. -/
theorem allocObj_none {s : Store} {bs : List Nat} {tag : CoraType}
    {s1 : Store} (h : allocObj s bs tag = (none, s1)) :
    s1 = { s with calls := s.calls + 1 } := by
  unfold allocObj at h
  cases hec : ensureCapacity s (s.used + bs.length) with
  | mk ok s2 =>
    cases ok
    · rw [hec] at h
      cases h
      exact ensureCapacity_false hec
    · rw [hec] at h
      simp at h

/-- A successful `ensureCapacity` in update form: the result is `s` with
only the arena fields and the host bookkeeping replaced. -/
theorem ensureCapacity_true_ex {s : Store} {need : Nat} {s1 : Store}
    (hm : s.memory.length = s.memLen)
    (h : ensureCapacity s need = (true, s1)) :
    ∃ L M B C, s1 =
      { s with memLen := L, memory := M, base := B, calls := C } ∧
      need ≤ L ∧ s.memLen ≤ L ∧ M.length = L ∧
      ∀ a k, a + k ≤ s.memLen → extract M a k = extract s.memory a k := by
  obtain ⟨h1, h2, h3, h4, h5, h6, h7, h8⟩ := ensureCapacity_true hm h
  have hgr : s1.grants = s.grants := by
    unfold ensureCapacity at h
    by_cases hle : need ≤ s.memLen
    · rw [if_pos hle] at h
      cases h
      rfl
    · rw [if_neg hle] at h
      cases hte : tryExpand s (max need (2 * s.memLen)) with
      | mk r s2 =>
        cases r with
        | none => rw [hte] at h; simp at h
        | some b =>
          rw [hte] at h
          cases h
          have hn0 : max need (2 * s.memLen) ≠ 0 := by
            have := le_max_left need (2 * s.memLen)
            omega
          exact (tryExpand_some hn0 hte).2.2.2.2.2.2.1
  refine ⟨s1.memLen, s1.memory, s1.base, s1.calls, ?_, h1, h2, h3, h8⟩
  ext <;> simp [hgr, h4, h5, h6, h7]

/-- A successful allocation: the handle is fresh, the new object resolves
to its initial bytes, every other handle is untouched, and
well-formedness is preserved. -/
theorem allocObj_some {s : Store} {bs : List Nat} {tag : CoraType}
    {h : Nat} {s2 : Store} (hwf : WF s)
    (he : allocObj s bs tag = (some h, s2)) :
    h = s.objects.length ∧
    s2.objects = s.objects ++ [⟨s.used, bs.length, tag, true⟩] ∧
    s2.used = s.used + bs.length ∧
    s.memLen ≤ s2.memLen ∧
    s2.symbols = s.symbols ∧ s2.values = s.values ∧
    resolve s2 h = some bs ∧ resolveTag s2 h = some tag ∧
    (∀ h2, h2 ≠ h → resolve s2 h2 = resolve s h2) ∧
    WF s2 := by
  unfold allocObj at he
  cases hec : ensureCapacity s (s.used + bs.length) with
  | mk ok s1 =>
    cases ok
    · rw [hec] at he
      simp at he
    · rw [hec] at he
      obtain ⟨L, M, B, C, rfl, hcap, hmono, hlen, hpres⟩ :=
        ensureCapacity_true_ex (WF_memory_length hwf) hec
      have hself : (s.objects ++
          [(⟨s.used, bs.length, tag, true⟩ : Entry)])[s.objects.length]? =
          some ⟨s.used, bs.length, tag, true⟩ := by
        rw [getElem?_append_single, if_neg (by omega), if_pos rfl]
      have hchar : ∀ i : Nat, (s.objects ++
          [(⟨s.used, bs.length, tag, true⟩ : Entry)])[i]? =
          if i < s.objects.length then s.objects[i]?
          else if i = s.objects.length then
            some ⟨s.used, bs.length, tag, true⟩ else none :=
        fun i => getElem?_append_single s.objects _ i
      have hu := WF_used_le hwf
      cases he
      refine ⟨rfl, rfl, rfl, by show s.memLen ≤ L; omega, rfl, rfl, ?_, ?_,
        ?_, ?_⟩
      · rw [resolve_of_entry hself, if_pos rfl]
        show some (extract (writeBytes M s.used bs) s.used bs.length) =
          some bs
        rw [extract_writeBytes_self (by omega)]
      · rw [resolveTag_of_entry hself, if_pos rfl]
      · intro h2 hne
        have hne2 : h2 ≠ s.objects.length := hne
        by_cases hlt : h2 < s.objects.length
        · cases he2 : s.objects[h2]? with
          | none =>
            rw [resolve_of_none ((hchar h2).trans (by
              rw [if_pos hlt, he2])), resolve_of_none he2]
          | some e2 =>
            rw [resolve_of_entry ((hchar h2).trans (by
              rw [if_pos hlt, he2])), resolve_of_entry he2]
            by_cases hl2 : e2.live = true
            · rw [if_pos hl2, if_pos hl2]
              have hb2 := WF_bound hwf he2 hl2
              show some (extract (writeBytes M s.used bs) e2.offset e2.size) =
                some (extract s.memory e2.offset e2.size)
              rw [extract_writeBytes_disjoint (by omega) (by left; omega),
                hpres _ _ (by omega)]
            · rw [if_neg hl2, if_neg hl2]
        · rw [resolve_of_none ((hchar h2).trans (by
            rw [if_neg hlt, if_neg hne2])),
            resolve_of_none (List.getElem?_eq_none (by omega))]
      · refine ⟨?_, ?_, ?_, ?_⟩
        · show (writeBytes M s.used bs).length = L
          rw [writeBytes_length (by omega), hlen]
        · show s.used + bs.length ≤ L
          omega
        · intro i hi
          have hi2 : i < s.objects.length + 1 := by
            simpa using hi
          unfold entryOK
          rw [hchar i]
          by_cases hlt : i < s.objects.length
          · rw [if_pos hlt]
            cases he2 : s.objects[i]? with
            | none => exact trivial
            | some e2 =>
              intro hl2
              have := WF_bound hwf he2 hl2
              show e2.offset + e2.size ≤ s.used + bs.length
              omega
          · rw [if_neg hlt, if_pos (by omega)]
            intro _
            show s.used + bs.length ≤ s.used + bs.length
            omega
        · intro i hi j hj hne
          have hi2 : i < s.objects.length + 1 := by simpa using hi
          have hj2 : j < s.objects.length + 1 := by simpa using hj
          unfold entriesDisj
          rw [hchar i, hchar j]
          by_cases hlti : i < s.objects.length <;>
            by_cases hltj : j < s.objects.length
          · rw [if_pos hlti, if_pos hltj]
            cases he1 : s.objects[i]? with
            | none => exact trivial
            | some e1 =>
              cases he2 : s.objects[j]? with
              | none => exact trivial
              | some e2 =>
                intro hl1 hl2
                exact WF_disj hwf he1 he2 hne hl1 hl2
          · rw [if_pos hlti, if_neg hltj, if_pos (by omega)]
            cases he1 : s.objects[i]? with
            | none => exact trivial
            | some e1 =>
              intro hl1 _
              have := WF_bound hwf he1 hl1
              unfold disjointE
              left
              show e1.offset + e1.size ≤ s.used
              omega
          · rw [if_neg hlti, if_pos (by omega), if_pos hltj]
            cases he2 : s.objects[j]? with
            | none => exact trivial
            | some e2 =>
              intro _ hl2
              have := WF_bound hwf he2 hl2
              unfold disjointE
              right
              show e2.offset + e2.size ≤ s.used
              omega
          · omega

/-- A failed resize changes at most the host-callback call counter. -/
theorem objResize_false {s : Store} {h n : Nat} {s1 : Store}
    (he : objResize s h n = (false, s1)) :
    s1 = { s with calls := s1.calls } := by
  unfold objResize at he
  split at he
  · cases he
    rfl
  · split at he
    · split at he
      · simp at he
      · split at he
        next hec =>
          cases he
          rw [ensureCapacity_false hec]
        next hec => simp at he
    · cases he
      rfl

/-- A successful resize: the handle keeps its identity and tag, now has
the requested size, resolves to the adjusted bytes (old prefix, zero
fill), and every other handle is untouched. -/
theorem objResize_true {s : Store} {h n : Nat} {s1 : Store} {e : Entry}
    (hwf : WF s) (he : s.objects[h]? = some e)
    (hr : objResize s h n = (true, s1)) :
    e.live = true ∧
    (∃ e1 : Entry, s1.objects[h]? = some e1 ∧ e1.live = true ∧
      e1.tag = e.tag ∧ e1.size = n) ∧
    resolve s1 h = some (adjustBytes (resolveBytes s e) n) ∧
    (∀ h2, h2 ≠ h → s1.objects[h2]? = s.objects[h2]?) ∧
    (∀ h2, h2 ≠ h → resolve s1 h2 = resolve s h2) ∧
    s1.objects.length = s.objects.length ∧
    s.used ≤ s1.used ∧ s1.symbols = s.symbols ∧ s1.values = s.values ∧
    WF s1 := by
  have hh := getElem?_some_lt he
  have hu := WF_used_le hwf
  have hml := WF_memory_length hwf
  have hwb := fun hl => WF_bound hwf he hl
  unfold objResize at hr
  split at hr
  next heq =>
    rw [he] at heq
    cases heq
  next e2 heq =>
    rw [he] at heq
    injection heq with heq2
    subst heq2
    split at hr
    case isFalse => cases hr
    case isTrue hl =>
    split at hr
    case isTrue hsz =>
      -- shrink in place
      cases hr
      have hwb2 := hwb hl
      have hset : (s.objects.set h { e with size := n })[h]? =
          some { e with size := n } := by
        rw [List.getElem?_set]
        rw [if_pos rfl, if_pos hh]
      have hsetne : ∀ h2, h2 ≠ h →
          (s.objects.set h { e with size := n })[h2]? = s.objects[h2]? := by
        intro h2 hne
        exact List.getElem?_set_ne fun c => hne c.symm
      have hblen : (resolveBytes s e).length = e.size :=
        resolveBytes_length (by omega)
      refine ⟨hl, ⟨{ e with size := n }, hset, hl, rfl, rfl⟩, ?_, hsetne, ?_,
        by simp, le_refl _, rfl, rfl, ?_⟩
      · rw [resolve_of_entry hset, if_pos hl]
        unfold adjustBytes
        rw [hblen, Nat.sub_eq_zero_of_le hsz, List.replicate_zero,
          List.append_nil]
        show some (extract s.memory e.offset n) =
          some ((resolveBytes s e).take n)
        unfold resolveBytes
        rw [extract_take hsz]
      · intro h2 hne
        cases he2 : s.objects[h2]? with
        | none => rw [resolve_of_none ((hsetne h2 hne).trans he2),
            resolve_of_none he2]
        | some e2 =>
          rw [resolve_of_entry ((hsetne h2 hne).trans he2),
            resolve_of_entry he2]
          rfl
      · refine ⟨hml, hwf.2.1, ?_, ?_⟩
        · intro i hi
          have hi2 : i < s.objects.length := by simpa using hi
          unfold entryOK
          by_cases hih : i = h
          · subst hih
            rw [hset]
            intro _
            show e.offset + n ≤ s.used
            omega
          · rw [hsetne i hih]
            have := hwf.2.2.1 i hi2
            unfold entryOK at this
            exact this
        · intro i hi j hj hne
          have hi2 : i < s.objects.length := by simpa using hi
          have hj2 : j < s.objects.length := by simpa using hj
          unfold entriesDisj
          by_cases hih : i = h <;> by_cases hjh : j = h
          · omega
          · subst hih
            rw [hset, hsetne j hjh]
            cases he2 : s.objects[j]? with
            | none => exact trivial
            | some e2 =>
              intro hl1 hl2
              have := WF_disj hwf he he2 (fun c => hne c) hl hl2
              unfold disjointE at this ⊢
              show e.offset + n ≤ e2.offset ∨ e2.offset + e2.size ≤ e.offset
              omega
          · subst hjh
            rw [hset, hsetne i hih]
            cases he2 : s.objects[i]? with
            | none => exact trivial
            | some e2 =>
              intro hl1 hl2
              have := WF_disj hwf he2 he (fun c => hih c) hl1 hl
              unfold disjointE at this ⊢
              show e2.offset + e2.size ≤ e.offset ∨ e.offset + n ≤ e2.offset
              omega
          · rw [hsetne i hih, hsetne j hjh]
            have := hwf.2.2.2 i hi2 j hj2 hne
            unfold entriesDisj at this
            exact this
    case isFalse hsz =>
      -- relocate to freshly allocated space
      split at hr
      next hec => simp at hr
      next hec =>
        cases hr
        have hwb2 := hwb hl
        obtain ⟨L, M, B, C, rfl, hcap, hmono, hlen, hpres⟩ :=
          ensureCapacity_true_ex hml hec
        have hbytes : extract M e.offset e.size = resolveBytes s e :=
          hpres _ _ (by omega)
        have hblen : (extract M e.offset e.size ++
            List.replicate (n - e.size) 0).length = n := by
          rw [List.length_append, List.length_replicate,
            extract_length_of_le (by omega)]
          omega
        have hset : (s.objects.set h
            (⟨s.used, n, e.tag, true⟩ : Entry))[h]? =
            some ⟨s.used, n, e.tag, true⟩ := by
          rw [List.getElem?_set]
          rw [if_pos rfl, if_pos hh]
        have hsetne : ∀ h2, h2 ≠ h →
            (s.objects.set h (⟨s.used, n, e.tag, true⟩ : Entry))[h2]? =
            s.objects[h2]? := by
          intro h2 hne
          exact List.getElem?_set_ne fun c => hne c.symm
        refine ⟨hl, ⟨⟨s.used, n, e.tag, true⟩, hset, rfl, rfl, rfl⟩, ?_,
          hsetne, ?_, by simp, by show s.used ≤ s.used + n; omega, rfl, rfl,
          ?_⟩
        · rw [resolve_of_entry hset, if_pos rfl]
          have hws := @extract_writeBytes_self M
            (extract M e.offset e.size ++ List.replicate (n - e.size) 0)
            s.used (by rw [hblen]; omega)
          rw [hblen] at hws
          show some (extract (writeBytes M s.used
            (extract M e.offset e.size ++ List.replicate (n - e.size) 0))
            s.used n) = some (adjustBytes (resolveBytes s e) n)
          rw [hws, hbytes]
          unfold adjustBytes
          rw [resolveBytes_length (by omega),
            List.take_of_length_le (by
              rw [resolveBytes_length (by omega)]; omega)]
        · intro h2 hne
          cases he2 : s.objects[h2]? with
          | none => rw [resolve_of_none ((hsetne h2 hne).trans he2),
              resolve_of_none he2]
          | some e2 =>
            rw [resolve_of_entry ((hsetne h2 hne).trans he2),
              resolve_of_entry he2]
            by_cases hl2 : e2.live = true
            · rw [if_pos hl2, if_pos hl2]
              have hb2 := WF_bound hwf he2 hl2
              show some (extract (writeBytes M s.used
                (extract M e.offset e.size ++
                  List.replicate (n - e.size) 0)) e2.offset e2.size) =
                some (extract s.memory e2.offset e2.size)
              rw [extract_writeBytes_disjoint (by omega) (by left; omega),
                hpres _ _ (by omega)]
            · rw [if_neg hl2, if_neg hl2]
        · refine ⟨?_, ?_, ?_, ?_⟩
          · show (writeBytes M s.used (extract M e.offset e.size ++
              List.replicate (n - e.size) 0)).length = L
            rw [writeBytes_length (by omega), hlen]
          · show s.used + n ≤ L
            omega
          · intro i hi
            have hi2 : i < s.objects.length := by simpa using hi
            unfold entryOK
            by_cases hih : i = h
            · subst hih
              rw [hset]
              intro _
              show s.used + n ≤ s.used + n
              omega
            · rw [hsetne i hih]
              cases he2 : s.objects[i]? with
              | none => exact trivial
              | some e2 =>
                intro hl2
                have := WF_bound hwf he2 hl2
                show e2.offset + e2.size ≤ s.used + n
                omega
          · intro i hi j hj hne
            have hi2 : i < s.objects.length := by simpa using hi
            have hj2 : j < s.objects.length := by simpa using hj
            unfold entriesDisj
            by_cases hih : i = h <;> by_cases hjh : j = h
            · omega
            · subst hih
              rw [hset, hsetne j hjh]
              cases he2 : s.objects[j]? with
              | none => exact trivial
              | some e2 =>
                intro hl1 hl2
                have := WF_bound hwf he2 hl2
                unfold disjointE
                right
                show e2.offset + e2.size ≤ s.used
                omega
            · subst hjh
              rw [hset, hsetne i hih]
              cases he2 : s.objects[i]? with
              | none => exact trivial
              | some e2 =>
                intro hl1 hl2
                have := WF_bound hwf he2 hl1
                unfold disjointE
                left
                show e2.offset + e2.size ≤ s.used
                omega
            · rw [hsetne i hih, hsetne j hjh]
              have := hwf.2.2.2 i hi2 j hj2 hne
              unfold entriesDisj at this
              exact this

theorem freeObj_eq {s : Store} {h : Nat} {e : Entry}
    (he : s.objects[h]? = some e) :
    freeObj s h =
      { s with objects := s.objects.set h { e with live := false } } := by
  unfold freeObj
  rw [he]

theorem freeObj_eq_none {s : Store} {h : Nat}
    (he : s.objects[h]? = none) : freeObj s h = s := by
  unfold freeObj
  rw [he]

/-- Freeing a handle leaves every other handle's resolved bytes unchanged
and preserves well-formedness. -/
theorem freeObj_parts {s : Store} (hwf : WF s) (h : Nat) :
    (∀ h2, h2 ≠ h → resolve (freeObj s h) h2 = resolve s h2) ∧
    (freeObj s h).objects.length = s.objects.length ∧
    WF (freeObj s h) := by
  cases he : s.objects[h]? with
  | none =>
    rw [freeObj_eq_none he]
    exact ⟨fun h2 _ => rfl, rfl, hwf⟩
  | some e =>
    rw [freeObj_eq he]
    have hh := getElem?_some_lt he
    have hsetne : ∀ h2, h2 ≠ h →
        (s.objects.set h { e with live := false })[h2]? = s.objects[h2]? :=
      fun h2 hne => List.getElem?_set_ne fun c => hne c.symm
    refine ⟨?_, by simp, ?_⟩
    · intro h2 hne
      cases he2 : s.objects[h2]? with
      | none => rw [resolve_of_none ((hsetne h2 hne).trans he2),
          resolve_of_none he2]
      | some e2 =>
        rw [resolve_of_entry ((hsetne h2 hne).trans he2),
          resolve_of_entry he2]
        rfl
    · refine ⟨hwf.1, hwf.2.1, ?_, ?_⟩
      · intro i hi
        have hi2 : i < s.objects.length := by simpa using hi
        unfold entryOK
        by_cases hih : i = h
        · subst hih
          rw [List.getElem?_set, if_pos rfl, if_pos hh]
          intro hc
          cases hc
        · rw [hsetne i hih]
          have := hwf.2.2.1 i hi2
          unfold entryOK at this
          exact this
      · intro i hi j hj hne
        have hi2 : i < s.objects.length := by simpa using hi
        have hj2 : j < s.objects.length := by simpa using hj
        unfold entriesDisj
        by_cases hih : i = h <;> by_cases hjh : j = h
        · omega
        · subst hih
          rw [List.getElem?_set, if_pos rfl, if_pos hh, hsetne j hjh]
          cases s.objects[j]? with
          | none => exact trivial
          | some e2 =>
            intro hc
            cases hc
        · subst hjh
          rw [hsetne i hih, List.getElem?_set, if_pos rfl, if_pos hh]
          cases s.objects[i]? with
          | none => exact trivial
          | some e2 =>
            intro _ hc
            cases hc
        · rw [hsetne i hih, hsetne j hjh]
          have := hwf.2.2.2 i hi2 j hj2 hne
          unfold entriesDisj at this
          exact this

/-! ## Trace-step equations and invariant preservation -/

theorem stepT_alloc_some {s : Store} {g : Ghost} {tag : CoraType}
    {bs : List Nat} {h : Nat} {s1 : Store}
    (hao : allocObj s bs tag = (some h, s1)) :
    stepT (s, g) (Op.alloc tag bs) = (s1, g ++ [some bs]) := by
  unfold stepT
  simp only [hao]

theorem stepT_alloc_none {s : Store} {g : Ghost} {tag : CoraType}
    {bs : List Nat} {s1 : Store} (hao : allocObj s bs tag = (none, s1)) :
    stepT (s, g) (Op.alloc tag bs) = (s1, g) := by
  unfold stepT
  simp only [hao]

theorem stepT_write_eq {s : Store} {g : Ghost} {h : Nat} {bs : List Nat}
    {e : Entry} (he : s.objects[h]? = some e)
    (hg : e.live = true ∧ bs.length = e.size) :
    stepT (s, g) (Op.write h bs) = (writeObj s h bs, g.set h (some bs)) := by
  unfold stepT
  simp only [he]
  exact if_pos hg

theorem stepT_write_noop {s : Store} {g : Ghost} {h : Nat} {bs : List Nat}
    {e : Entry} (he : s.objects[h]? = some e)
    (hg : ¬ (e.live = true ∧ bs.length = e.size)) :
    stepT (s, g) (Op.write h bs) = (s, g) := by
  unfold stepT
  simp only [he]
  exact if_neg hg

theorem stepT_write_none {s : Store} {g : Ghost} {h : Nat} {bs : List Nat}
    (he : s.objects[h]? = none) :
    stepT (s, g) (Op.write h bs) = (s, g) := by
  unfold stepT
  simp only [he]

theorem stepT_resize_true {s : Store} {g : Ghost} {h n : Nat} {s1 : Store}
    (hr : objResize s h n = (true, s1)) :
    stepT (s, g) (Op.resize h n) = (s1,
      match g[h]? with
      | some (some bs) => g.set h (some (adjustBytes bs n))
      | _ => g) := by
  unfold stepT
  simp only [hr]

theorem stepT_resize_false {s : Store} {g : Ghost} {h n : Nat} {s1 : Store}
    (hr : objResize s h n = (false, s1)) :
    stepT (s, g) (Op.resize h n) = (s1, g) := by
  unfold stepT
  simp only [hr]

theorem stepT_grow_lt {s : Store} {g : Ghost} {n : Nat}
    (h : s.memLen < n) :
    stepT (s, g) (Op.grow n) = ((tryExpand s n).2, g) := by
  unfold stepT
  exact if_pos h

theorem stepT_grow_ge {s : Store} {g : Ghost} {n : Nat}
    (h : ¬ s.memLen < n) : stepT (s, g) (Op.grow n) = (s, g) := by
  unfold stepT
  exact if_neg h

theorem stepT_free_eq (s : Store) (g : Ghost) (h : Nat) :
    stepT (s, g) (Op.free h) = (freeObj s h, g.set h none) := rfl

/-- One trace step preserves the simulation invariant. -/
theorem stepT_inv {s : Store} {g : Ghost} (hinv : Inv s g) (op : Op) :
    Inv (stepT (s, g) op).1 (stepT (s, g) op).2 := by
  obtain ⟨hwf, hlen, hgh⟩ := hinv
  cases op with
  | alloc tag bs =>
    cases hao : allocObj s bs tag with
    | mk r s1 =>
      cases r with
      | none =>
        rw [stepT_alloc_none hao]
        rw [allocObj_none hao]
        exact ⟨hwf, hlen, hgh⟩
      | some h =>
        rw [stepT_alloc_some hao]
        obtain ⟨rfl, hobj, hused, -, -, -, hres, -, hframe, hwf2⟩ :=
          allocObj_some hwf hao
        refine ⟨hwf2, ?_, ?_⟩
        · rw [hobj]
          simp [hlen]
        · intro h2 hh2
          rw [hobj] at hh2
          simp only [List.length_append, List.length_cons,
            List.length_nil] at hh2
          by_cases hlt : h2 < s.objects.length
          · unfold ghostOK
            cases he2 : s1.objects[h2]? with
            | none => exact trivial
            | some e2 =>
              intro hl2
              have he2old : s.objects[h2]? = some e2 := by
                rw [hobj, getElem?_append_single, if_pos hlt] at he2
                exact he2
              have h1 : resolve s1 h2 = resolve s h2 :=
                hframe h2 (by omega)
              rw [resolve_of_entry he2, if_pos hl2,
                resolve_of_entry he2old, if_pos hl2] at h1
              injection h1 with h1b
              rw [List.getElem?_append, if_pos (by omega), h1b]
              have hold := hgh h2 hlt
              unfold ghostOK at hold
              rw [he2old] at hold
              exact hold hl2
          · have hh2e : h2 = s.objects.length := by omega
            subst hh2e
            unfold ghostOK
            have hself : s1.objects[s.objects.length]? =
                some ⟨s.used, bs.length, tag, true⟩ := by
              rw [hobj, getElem?_append_single, if_neg (by omega),
                if_pos rfl]
            rw [hself]
            intro _
            rw [resolve_of_entry hself, if_pos rfl] at hres
            injection hres with hres2
            rw [List.getElem?_append, if_neg (by omega)]
            have hz : s.objects.length - g.length = 0 := by omega
            rw [hz]
            rw [hres2]
            rfl
  | write h bs =>
    cases he : s.objects[h]? with
    | none =>
      rw [stepT_write_none he]
      exact ⟨hwf, hlen, hgh⟩
    | some e =>
      by_cases hg : e.live = true ∧ bs.length = e.size
      · rw [stepT_write_eq he hg]
        obtain ⟨ho, hu, hL, hsym, hv, -, -⟩ := writeObj_fields he hg.1 hg.2
        refine ⟨writeObj_WF hwf he hg.1 hg.2, by rw [ho]; simpa using hlen,
          ?_⟩
        · intro h2 hh2
          rw [ho] at hh2
          unfold ghostOK
          by_cases hhh : h2 = h
          · subst hhh
            have heW : (writeObj s h2 bs).objects[h2]? = some e := by
              rw [ho]; exact he
            rw [heW]
            intro _
            have hres := writeObj_resolve_self hwf he hg.1 hg.2
            rw [resolve_of_entry heW, if_pos hg.1] at hres
            injection hres with hres2
            rw [hres2, List.getElem?_set, if_pos rfl,
              if_pos (by omega)]
          · cases he2 : (writeObj s h bs).objects[h2]? with
            | none => exact trivial
            | some e2 =>
              intro hl2
              have he2old : s.objects[h2]? = some e2 := by
                rw [ho] at he2; exact he2
              have h1 : resolve (writeObj s h bs) h2 = resolve s h2 :=
                writeObj_frame hwf he hg.1 hg.2 hhh
              rw [resolve_of_entry he2, if_pos hl2,
                resolve_of_entry he2old, if_pos hl2] at h1
              injection h1 with h1b
              rw [List.getElem?_set_ne (fun c => hhh c.symm), h1b]
              have hold := hgh h2 hh2
              unfold ghostOK at hold
              rw [he2old] at hold
              exact hold hl2
      · rw [stepT_write_noop he hg]
        exact ⟨hwf, hlen, hgh⟩
  | resize h n =>
    cases hro : objResize s h n with
    | mk ok s1 =>
      cases ok
      · rw [stepT_resize_false hro]
        rw [objResize_false hro]
        exact ⟨hwf, hlen, hgh⟩
      · rw [stepT_resize_true hro]
        cases he : s.objects[h]? with
        | none =>
          unfold objResize at hro
          rw [he] at hro
          exact absurd (congrArg Prod.fst hro) (by simp)
        | some e =>
          obtain ⟨hl, ⟨e1, he1, hl1, htag1, hsz1⟩, hres, hoframe, hrframe,
            hlen1, hused1, -, -, hwf1⟩ := objResize_true hwf he hro
          have hlt := getElem?_some_lt he
          have hgold := hgh h hlt
          unfold ghostOK at hgold
          rw [he] at hgold
          have hgold2 := hgold hl
          rw [hgold2]
          refine ⟨hwf1, by rw [hlen1]; simpa using hlen, ?_⟩
          intro h2 hh2
          rw [hlen1] at hh2
          unfold ghostOK
          by_cases hhh : h2 = h
          · subst hhh
            rw [he1]
            intro _
            rw [resolve_of_entry he1, if_pos hl1] at hres
            injection hres with hres2
            rw [hres2, List.getElem?_set, if_pos rfl, if_pos (by omega)]
          · cases he2 : s1.objects[h2]? with
            | none => exact trivial
            | some e2 =>
              intro hl2
              have he2old : s.objects[h2]? = some e2 := by
                rw [← hoframe h2 hhh]
                exact he2
              have h1 : resolve s1 h2 = resolve s h2 := hrframe h2 hhh
              rw [resolve_of_entry he2, if_pos hl2,
                resolve_of_entry he2old, if_pos hl2] at h1
              injection h1 with h1b
              rw [List.getElem?_set_ne (fun c => hhh c.symm), h1b]
              have hold := hgh h2 hh2
              unfold ghostOK at hold
              rw [he2old] at hold
              exact hold hl2
  | grow n =>
    by_cases hlt : s.memLen < n
    · rw [stepT_grow_lt hlt]
      cases hte : tryExpand s n with
      | mk r s1 =>
        cases r with
        | none =>
          rw [tryExpand_none hte]
          exact ⟨hwf, hlen, hgh⟩
        | some b =>
          obtain ⟨hL, hM, hU, hO, hsym, hv, hgr, hc⟩ :=
            tryExpand_some (by omega) hte
          have hml := WF_memory_length hwf
          have hu := WF_used_le hwf
          have hms : s1.memory =
              s.memory ++ List.replicate (n - s.memLen) 0 := by
            rw [hM, Nat.min_eq_left (by omega), ← hml, List.take_length,
              hml]
          have hpre : ∀ e : Entry, e.offset + e.size ≤ s.used →
              resolveBytes s1 e = resolveBytes s e := by
            intro e hb
            unfold resolveBytes
            rw [hms, extract_append_of_le (by omega)]
          refine ⟨⟨?_, ?_, ?_, ?_⟩, by rw [hO]; exact hlen, ?_⟩
          · rw [hms, List.length_append, List.length_replicate, hml, hL]
            omega
          · rw [hU, hL]
            omega
          · rw [hO, hU]
            exact hwf.2.2.1
          · rw [hO]
            exact hwf.2.2.2
          · intro h2 hh2
            rw [hO] at hh2
            unfold ghostOK
            rw [hO]
            cases he2 : s.objects[h2]? with
            | none => exact trivial
            | some e2 =>
              intro hl2
              rw [hpre e2 (WF_bound hwf he2 hl2)]
              have hold := hgh h2 hh2
              unfold ghostOK at hold
              rw [he2] at hold
              exact hold hl2
    · rw [stepT_grow_ge hlt]
      exact ⟨hwf, hlen, hgh⟩
  | free h =>
    rw [stepT_free_eq]
    obtain ⟨hframe, hlen2, hwf2⟩ := freeObj_parts hwf h
    refine ⟨hwf2, by rw [hlen2]; simpa using hlen, ?_⟩
    intro h2 hh2
    rw [hlen2] at hh2
    unfold ghostOK
    by_cases hhh : h2 = h
    · subst hhh
      cases he : s.objects[h2]? with
      | none =>
        rw [freeObj_eq_none he, he]
        exact trivial
      | some e =>
        rw [freeObj_eq he]
        have hh := getElem?_some_lt he
        have hch : (s.objects.set h2 { e with live := false })[h2]? =
            some { e with live := false } := by
          rw [List.getElem?_set, if_pos rfl, if_pos hh]
        rw [hch]
        intro hc
        cases hc
    · have hoe : (freeObj s h).objects[h2]? = s.objects[h2]? := by
        cases he : s.objects[h]? with
        | none => rw [freeObj_eq_none he]
        | some e =>
          rw [freeObj_eq he]
          exact List.getElem?_set_ne fun c => hhh c.symm
      cases he2 : s.objects[h2]? with
      | none =>
        rw [hoe, he2]
        exact trivial
      | some e2 =>
        rw [hoe, he2]
        intro hl2
        have h1 : resolve (freeObj s h) h2 = resolve s h2 := hframe h2 hhh
        rw [resolve_of_entry (hoe.trans he2), if_pos hl2,
          resolve_of_entry he2, if_pos hl2] at h1
        injection h1 with h1b
        rw [List.getElem?_set_ne (fun c => hhh c.symm), h1b]
        have hold := hgh h2 hh2
        unfold ghostOK at hold
        rw [he2] at hold
        exact hold hl2

/-- Running a whole trace preserves the simulation invariant. -/
theorem runT_inv (ops : List Op) : ∀ (s : Store) (g : Ghost), Inv s g →
    Inv (runT (s, g) ops).1 (runT (s, g) ops).2 := by
  induction ops with
  | nil => intro s g h; exact h
  | cons op rest ih =>
    intro s g h
    have h1 := stepT_inv h op
    cases hst : stepT (s, g) op with
    | mk s1 g1 =>
      rw [hst] at h1
      have hr : runT (s, g) (op :: rest) = runT (s1, g1) rest := by
        unfold runT
        rw [List.foldl_cons, hst]
      rw [hr]
      exact ih s1 g1 h1

/-! ## Pure facts about the slot encodings and list helpers -/

theorem extract_prefix (a b : List Nat) : extract (a ++ b) 0 a.length = a := by
  apply List.ext_getElem?
  intro i
  rw [extract_getElem?]
  by_cases hi : i < a.length
  · rw [if_pos hi, Nat.zero_add, List.getElem?_append, if_pos hi]
  · rw [if_neg hi, eq_comm]
    exact List.getElem?_eq_none (by omega)

theorem extract_at_append (pre mid post : List Nat) :
    extract (pre ++ (mid ++ post)) pre.length mid.length = mid := by
  apply List.ext_getElem?
  intro i
  rw [extract_getElem?]
  by_cases hi : i < mid.length
  · rw [if_pos hi, List.getElem?_append, if_neg (by omega),
      List.getElem?_append]
    have hz : pre.length + i - pre.length = i := by omega
    rw [hz, if_pos hi]
  · rw [if_neg hi, eq_comm]
    exact List.getElem?_eq_none (by omega)

@[simp] theorem encSlots_length (xs : List Nat) :
    (encSlots xs).length = 8 * xs.length := by
  induction xs with
  | nil => rfl
  | cons x r ih =>
    unfold encSlots
    rw [List.length_append, encLE_length, ih, List.length_cons]
    ring

theorem encListPayload_length {cap : Nat} {xs : List Nat}
    (h : xs.length ≤ cap) :
    (encListPayload cap xs).length = 8 + 8 * cap := by
  unfold encListPayload
  rw [List.length_append, List.length_append, encLE_length,
    encSlots_length, List.length_replicate]
  omega

@[simp] theorem encPairSlots_length (ps : List (Nat × Nat)) :
    (encPairSlots ps).length = 16 * ps.length := by
  induction ps with
  | nil => rfl
  | cons p r ih =>
    unfold encPairSlots
    rw [List.length_append, List.length_append, encLE_length, encLE_length,
      ih, List.length_cons]
    ring

theorem encMapPayload_length {cap : Nat} {ps : List (Nat × Nat)}
    (h : ps.length ≤ cap) :
    (encMapPayload cap ps).length = 8 + 16 * cap := by
  unfold encMapPayload
  rw [List.length_append, List.length_append, encLE_length,
    encPairSlots_length, List.length_replicate]
  omega

theorem decSlots_encSlots (xs : List Nat) : ∀ pre post : List Nat,
    (∀ x ∈ xs, x < 2 ^ 64) →
    decSlots (pre ++ (encSlots xs ++ post)) xs.length pre.length = xs := by
  induction xs with
  | nil => intro pre post hx; rfl
  | cons x r ih =>
    intro pre post hx
    show decLE 8 (extract (pre ++ (encSlots (x :: r) ++ post))
        pre.length 8) ::
      decSlots (pre ++ (encSlots (x :: r) ++ post)) r.length
        (pre.length + 8) = x :: r
    have hcons : encSlots (x :: r) = encLE 8 x ++ encSlots r := rfl
    have hassoc : pre ++ (encSlots (x :: r) ++ post) =
        (pre ++ encLE 8 x) ++ (encSlots r ++ post) := by
      rw [hcons]
      simp [List.append_assoc]
    congr 1
    · have hmid := extract_at_append pre (encLE 8 x) (encSlots r ++ post)
      rw [encLE_length] at hmid
      have hassoc2 : pre ++ (encLE 8 x ++ (encSlots r ++ post)) =
          pre ++ (encSlots (x :: r) ++ post) := by
        rw [hcons]
        simp [List.append_assoc]
      rw [hassoc2] at hmid
      rw [hmid, decLE_encLE_of_lt (by
        have := hx x (List.mem_cons_self x r)
        norm_num
        omega)]
    · rw [hassoc]
      have hlen : pre.length + 8 = (pre ++ encLE 8 x).length := by
        rw [List.length_append, encLE_length]
      rw [hlen]
      exact ih (pre ++ encLE 8 x) post
        (fun y hy => hx y (List.mem_cons_of_mem x hy))

theorem decPairSlots_encPairSlots (ps : List (Nat × Nat)) :
    ∀ pre post : List Nat,
    (∀ p ∈ ps, p.1 < 2 ^ 64 ∧ p.2 < 2 ^ 64) →
    decPairSlots (pre ++ (encPairSlots ps ++ post)) ps.length pre.length =
      ps := by
  induction ps with
  | nil => intro pre post hx; rfl
  | cons p r ih =>
    intro pre post hx
    have hp := hx p (List.mem_cons_self p r)
    show (decLE 8 (extract (pre ++ (encPairSlots (p :: r) ++ post))
        pre.length 8),
      decLE 8 (extract (pre ++ (encPairSlots (p :: r) ++ post))
        (pre.length + 8) 8)) ::
      decPairSlots (pre ++ (encPairSlots (p :: r) ++ post)) r.length
        (pre.length + 16) = p :: r
    have hcons : encPairSlots (p :: r) =
        encLE 8 p.1 ++ encLE 8 p.2 ++ encPairSlots r := rfl
    have hflat : pre ++ (encPairSlots (p :: r) ++ post) =
        pre ++ (encLE 8 p.1 ++ (encLE 8 p.2 ++ (encPairSlots r ++ post))) := by
      rw [hcons]
      simp [List.append_assoc]
    congr 1
    · have h1 := extract_at_append pre (encLE 8 p.1)
        (encLE 8 p.2 ++ (encPairSlots r ++ post))
      rw [encLE_length] at h1
      rw [← hflat] at h1
      have h2 := extract_at_append (pre ++ encLE 8 p.1) (encLE 8 p.2)
        (encPairSlots r ++ post)
      rw [encLE_length, List.length_append, encLE_length] at h2
      have hflat2 : (pre ++ encLE 8 p.1) ++
          (encLE 8 p.2 ++ (encPairSlots r ++ post)) =
          pre ++ (encPairSlots (p :: r) ++ post) := by
        rw [hcons]
        simp [List.append_assoc]
      rw [hflat2] at h2
      rw [h1, h2, decLE_encLE_of_lt (by norm_num; omega),
        decLE_encLE_of_lt (by norm_num; omega)]
    · have hflat3 : pre ++ (encPairSlots (p :: r) ++ post) =
          ((pre ++ encLE 8 p.1) ++ encLE 8 p.2) ++ (encPairSlots r ++ post) := by
        rw [hcons]
        simp [List.append_assoc]
      rw [hflat3]
      have hlen : pre.length + 16 =
          ((pre ++ encLE 8 p.1) ++ encLE 8 p.2).length := by
        rw [List.length_append, List.length_append, encLE_length,
          encLE_length]
      rw [hlen]
      exact ih ((pre ++ encLE 8 p.1) ++ encLE 8 p.2) post
        (fun q hq => hx q (List.mem_cons_of_mem p hq))

theorem insertAt_eq (xs : List Nat) : ∀ (i : Nat) (x : Nat),
    insertAt xs i x =
      xs.take (min i xs.length) ++ x :: xs.drop (min i xs.length) := by
  induction xs with
  | nil =>
    intro i x
    cases i <;> rfl
  | cons y ys ih =>
    intro i x
    cases i with
    | zero => rfl
    | succ i =>
      show y :: insertAt ys i x = _
      rw [ih i x]
      simp only [List.length_cons]
      have hmin : min (i + 1) (ys.length + 1) = min i ys.length + 1 := by
        omega
      rw [hmin]
      rfl

theorem insertAt_length (xs : List Nat) (i : Nat) (x : Nat) :
    (insertAt xs i x).length = xs.length + 1 := by
  rw [insertAt_eq]
  rw [List.length_append, List.length_take, List.length_cons,
    List.length_drop]
  omega

theorem insertAt_mem {xs : List Nat} {i x y : Nat}
    (h : y ∈ insertAt xs i x) : y ∈ xs ∨ y = x := by
  rw [insertAt_eq] at h
  rcases List.mem_append.mp h with h1 | h1
  · exact Or.inl (List.mem_of_mem_take h1)
  · rcases List.mem_cons.mp h1 with h2 | h2
    · exact Or.inr h2
    · exact Or.inl (List.mem_of_mem_drop h2)

theorem setPairVal_length (ps : List (Nat × Nat)) : ∀ i v,
    (setPairVal ps i v).length = ps.length := by
  induction ps with
  | nil => intro i v; cases i <;> rfl
  | cons p r ih =>
    intro i v
    cases i with
    | zero => rfl
    | succ i =>
      show (p :: setPairVal r i v).length = _
      simp [ih i v]

theorem setPairVal_fst (ps : List (Nat × Nat)) : ∀ (i v k : Nat),
    ((setPairVal ps i v)[k]?).map Prod.fst = (ps[k]?).map Prod.fst := by
  induction ps with
  | nil =>
    intro i v k
    cases i <;> rfl
  | cons p r ih =>
    intro i v k
    cases i with
    | zero =>
      cases k with
      | zero => simp [setPairVal]
      | succ k => simp [setPairVal]
    | succ i =>
      cases k with
      | zero => simp [setPairVal]
      | succ k =>
        have hstep : setPairVal (p :: r) (i + 1) v = p :: setPairVal r i v :=
          rfl
        rw [hstep]
        simp only [List.getElem?_cons_succ]
        exact ih i v k

theorem setPairVal_get_self (ps : List (Nat × Nat)) : ∀ (i v : Nat),
    i < ps.length →
    (setPairVal ps i v)[i]? = (ps[i]?).map fun p => (p.1, v) := by
  induction ps with
  | nil =>
    intro i v h
    simp at h
  | cons p r ih =>
    intro i v h
    cases i with
    | zero => simp [setPairVal]
    | succ i =>
      have hstep : setPairVal (p :: r) (i + 1) v = p :: setPairVal r i v :=
        rfl
      rw [hstep]
      simp only [List.getElem?_cons_succ]
      exact ih i v (by simpa using h)

theorem setPairVal_bound {v : Nat} (hv : v < 2 ^ 64)
    (ps : List (Nat × Nat)) :
    ∀ i, (∀ p ∈ ps, p.1 < 2 ^ 64 ∧ p.2 < 2 ^ 64) →
      ∀ q ∈ setPairVal ps i v, q.1 < 2 ^ 64 ∧ q.2 < 2 ^ 64 := by
  induction ps with
  | nil =>
    intro i hps q hq
    cases i <;> simp [setPairVal] at hq
  | cons p r ih =>
    intro i hps q hq
    cases i with
    | zero =>
      rcases List.mem_cons.mp hq with h1 | h1
      · subst h1
        exact ⟨(hps p (List.mem_cons_self p r)).1, hv⟩
      · exact hps q (List.mem_cons_of_mem p h1)
    | succ i =>
      rcases List.mem_cons.mp hq with h1 | h1
      · rw [h1]
        exact hps p (List.mem_cons_self p r)
      · exact ih i (fun a ha => hps a (List.mem_cons_of_mem p ha)) q h1

theorem setPairVal_fst_mem (ps : List (Nat × Nat)) :
    ∀ (i v : Nat), ∀ q ∈ setPairVal ps i v, q.1 ∈ ps.map Prod.fst := by
  induction ps with
  | nil =>
    intro i v q hq
    cases i <;> simp [setPairVal] at hq
  | cons p r ih =>
    intro i v q hq
    cases i with
    | zero =>
      rcases List.mem_cons.mp hq with h1 | h1
      · subst h1
        simp
      · simp only [List.map_cons, List.mem_cons]
        exact Or.inr (List.mem_map_of_mem Prod.fst h1)
    | succ i =>
      rcases List.mem_cons.mp hq with h1 | h1
      · subst h1
        simp
      · simp only [List.map_cons, List.mem_cons]
        exact Or.inr (ih i v q h1)

@[simp] theorem decSlots_length (bs : List Nat) : ∀ k off : Nat,
    (decSlots bs k off).length = k := by
  intro k
  induction k with
  | zero => intro off; rfl
  | succ k ih =>
    intro off
    show (decLE 8 (extract bs off 8) :: decSlots bs k (off + 8)).length = _
    rw [List.length_cons, ih]

@[simp] theorem decPairSlots_length (bs : List Nat) : ∀ k off : Nat,
    (decPairSlots bs k off).length = k := by
  intro k
  induction k with
  | zero => intro off; rfl
  | succ k ih =>
    intro off
    show (_ :: decPairSlots bs k (off + 16)).length = _
    rw [List.length_cons, ih]

/-! ## Store-level container decode lemmas -/

theorem listDecode_of_entry {s : Store} {l : Nat} {e : Entry}
    (he : s.objects[l]? = some e) :
    listDecode s l =
      if e.live = true ∧ e.tag = CoraType.list ∧ 8 ≤ e.size ∧
          (e.size - 8) % 8 = 0 then
        if decLE 8 (extract (resolveBytes s e) 0 8) ≤ (e.size - 8) / 8 then
          some ((e.size - 8) / 8, decSlots (resolveBytes s e)
            (decLE 8 (extract (resolveBytes s e) 0 8)) 8)
        else none
      else none := by
  unfold listDecode
  rw [he]

theorem listDecode_of_none {s : Store} {l : Nat}
    (he : s.objects[l]? = none) : listDecode s l = none := by
  unfold listDecode
  rw [he]

theorem mapDecode_of_entry {s : Store} {m : Nat} {e : Entry}
    (he : s.objects[m]? = some e) :
    mapDecode s m =
      if e.live = true ∧ e.tag = CoraType.map ∧ 8 ≤ e.size ∧
          (e.size - 8) % 16 = 0 then
        if decLE 8 (extract (resolveBytes s e) 0 8) ≤ (e.size - 8) / 16 then
          some ((e.size - 8) / 16, decPairSlots (resolveBytes s e)
            (decLE 8 (extract (resolveBytes s e) 0 8)) 8)
        else none
      else none := by
  unfold mapDecode
  rw [he]

theorem mapDecode_of_none {s : Store} {m : Nat}
    (he : s.objects[m]? = none) : mapDecode s m = none := by
  unfold mapDecode
  rw [he]

/-- What a successful list decode says about the handle-table entry. -/
theorem listDecode_some {s : Store} {l cap : Nat} {xs : List Nat}
    (hd : listDecode s l = some (cap, xs)) :
    ∃ e : Entry, s.objects[l]? = some e ∧ e.live = true ∧
      e.tag = CoraType.list ∧ e.size = 8 + 8 * cap ∧ xs.length ≤ cap := by
  cases he : s.objects[l]? with
  | none => rw [listDecode_of_none he] at hd; cases hd
  | some e =>
    rw [listDecode_of_entry he] at hd
    split at hd
    next hcond =>
      split at hd
      next hlen =>
        injection hd with hd2
        have hc : (e.size - 8) / 8 = cap := congrArg Prod.fst hd2
        have hx : decSlots (resolveBytes s e)
            (decLE 8 (extract (resolveBytes s e) 0 8)) 8 = xs :=
          congrArg Prod.snd hd2
        refine ⟨e, rfl, hcond.1, hcond.2.1, by omega, ?_⟩
        rw [← hx, decSlots_length]
        omega
      next hlen => cases hd
    next hcond => cases hd

/-- What a successful map decode says about the handle-table entry. -/
theorem mapDecode_some {s : Store} {m cap : Nat} {ps : List (Nat × Nat)}
    (hd : mapDecode s m = some (cap, ps)) :
    ∃ e : Entry, s.objects[m]? = some e ∧ e.live = true ∧
      e.tag = CoraType.map ∧ e.size = 8 + 16 * cap ∧ ps.length ≤ cap := by
  cases he : s.objects[m]? with
  | none => rw [mapDecode_of_none he] at hd; cases hd
  | some e =>
    rw [mapDecode_of_entry he] at hd
    split at hd
    next hcond =>
      split at hd
      next hlen =>
        injection hd with hd2
        have hc : (e.size - 8) / 16 = cap := congrArg Prod.fst hd2
        have hx : decPairSlots (resolveBytes s e)
            (decLE 8 (extract (resolveBytes s e) 0 8)) 8 = ps :=
          congrArg Prod.snd hd2
        refine ⟨e, rfl, hcond.1, hcond.2.1, by omega, ?_⟩
        rw [← hx, decPairSlots_length]
        omega
      next hlen => cases hd
    next hcond => cases hd

/-- Writing a freshly encoded payload through a live list handle decodes
back to exactly the written capacity and items. -/
theorem listDecode_write {s : Store} {l : Nat} {e : Entry} {cap : Nat}
    (xs : List Nat) (hwf : WF s) (he : s.objects[l]? = some e)
    (hl : e.live = true) (htag : e.tag = CoraType.list)
    (hsz : e.size = 8 + 8 * cap) (hxs : xs.length ≤ cap)
    (hlen64 : xs.length < 2 ^ 64) (hx : ∀ x ∈ xs, x < 2 ^ 64) :
    listDecode (writeObj s l (encListPayload cap xs)) l = some (cap, xs) := by
  have hlenp : (encListPayload cap xs).length = e.size := by
    rw [encListPayload_length hxs, hsz]
  have hres := writeObj_resolve_self hwf he hl hlenp
  have hof : (writeObj s l (encListPayload cap xs)).objects[l]? = some e := by
    rw [(writeObj_fields he hl hlenp).1]
    exact he
  rw [resolve_of_entry hof, if_pos hl] at hres
  injection hres with hres2
  rw [listDecode_of_entry hof, hres2]
  have hshape : encListPayload cap xs = encLE 8 xs.length ++
      (encSlots xs ++ List.replicate (8 * (cap - xs.length)) 0) := by
    unfold encListPayload
    simp [List.append_assoc]
  have hpref : extract (encListPayload cap xs) 0 8 = encLE 8 xs.length := by
    rw [hshape]
    have := extract_prefix (encLE 8 xs.length)
      (encSlots xs ++ List.replicate (8 * (cap - xs.length)) 0)
    rw [encLE_length] at this
    exact this
  have hlen8 : decLE 8 (extract (encListPayload cap xs) 0 8) = xs.length := by
    rw [hpref, decLE_encLE_of_lt (by norm_num; omega)]
  rw [if_pos ⟨hl, htag, by omega, by omega⟩, hlen8, if_pos (by omega)]
  have hslots : decSlots (encListPayload cap xs) xs.length 8 = xs := by
    have := decSlots_encSlots xs (encLE 8 xs.length)
      (List.replicate (8 * (cap - xs.length)) 0) hx
    rw [encLE_length] at this
    rw [hshape]
    exact this
  rw [hslots]
  have hc : (e.size - 8) / 8 = cap := by omega
  rw [hc]

/-- Writing a freshly encoded payload through a live map handle decodes
back to exactly the written capacity and pairs. -/
theorem mapDecode_write {s : Store} {m : Nat} {e : Entry} {cap : Nat}
    (ps : List (Nat × Nat)) (hwf : WF s) (he : s.objects[m]? = some e)
    (hl : e.live = true) (htag : e.tag = CoraType.map)
    (hsz : e.size = 8 + 16 * cap) (hps : ps.length ≤ cap)
    (hlen64 : ps.length < 2 ^ 64)
    (hx : ∀ p ∈ ps, p.1 < 2 ^ 64 ∧ p.2 < 2 ^ 64) :
    mapDecode (writeObj s m (encMapPayload cap ps)) m = some (cap, ps) := by
  have hlenp : (encMapPayload cap ps).length = e.size := by
    rw [encMapPayload_length hps, hsz]
  have hres := writeObj_resolve_self hwf he hl hlenp
  have hof : (writeObj s m (encMapPayload cap ps)).objects[m]? = some e := by
    rw [(writeObj_fields he hl hlenp).1]
    exact he
  rw [resolve_of_entry hof, if_pos hl] at hres
  injection hres with hres2
  rw [mapDecode_of_entry hof, hres2]
  have hshape : encMapPayload cap ps = encLE 8 ps.length ++
      (encPairSlots ps ++ List.replicate (16 * (cap - ps.length)) 0) := by
    unfold encMapPayload
    simp [List.append_assoc]
  have hpref : extract (encMapPayload cap ps) 0 8 = encLE 8 ps.length := by
    rw [hshape]
    have := extract_prefix (encLE 8 ps.length)
      (encPairSlots ps ++ List.replicate (16 * (cap - ps.length)) 0)
    rw [encLE_length] at this
    exact this
  have hlen8 : decLE 8 (extract (encMapPayload cap ps) 0 8) = ps.length := by
    rw [hpref, decLE_encLE_of_lt (by norm_num; omega)]
  rw [if_pos ⟨hl, htag, by omega, by omega⟩, hlen8, if_pos (by omega)]
  have hslots : decPairSlots (encMapPayload cap ps) ps.length 8 = ps := by
    have := decPairSlots_encPairSlots ps (encLE 8 ps.length)
      (List.replicate (16 * (cap - ps.length)) 0) hx
    rw [encLE_length] at this
    rw [hshape]
    exact this
  rw [hslots]
  have hc : (e.size - 8) / 16 = cap := by omega
  rw [hc]

/-! ## Interned names and pair lookup -/

theorem nameOf_of_entry {s : Store} {h : Nat} {e : Entry}
    (he : s.objects[h]? = some e) :
    nameOf s h =
      if e.live = true ∧ e.tag = CoraType.string then
        some (decString (resolveBytes s e))
      else none := by
  unfold nameOf
  rw [he]

theorem nameOf_of_none {s : Store} {h : Nat}
    (he : s.objects[h]? = none) : nameOf s h = none := by
  unfold nameOf
  rw [he]

/-- `nameOf` only depends on the handle's entry and resolved bytes. -/
theorem nameOf_congr {s s2 : Store} {h : Nat}
    (ho : s2.objects[h]? = s.objects[h]?)
    (hr : resolve s2 h = resolve s h) : nameOf s2 h = nameOf s h := by
  cases he : s.objects[h]? with
  | none => rw [nameOf_of_none (ho.trans he), nameOf_of_none he]
  | some e =>
    rw [nameOf_of_entry (ho.trans he), nameOf_of_entry he]
    by_cases hl : e.live = true
    · rw [resolve_of_entry (ho.trans he), resolve_of_entry he, if_pos hl,
        if_pos hl] at hr
      injection hr with hr2
      rw [hr2]
    · rw [if_neg (fun hc => hl hc.1), if_neg (fun hc => hl hc.1)]

theorem findPairIdx_congr {s s2 : Store} {name : List Nat} :
    ∀ ps : List (Nat × Nat),
    (∀ p ∈ ps, nameOf s2 p.1 = nameOf s p.1) →
    findPairIdx s2 ps name = findPairIdx s ps name := by
  intro ps
  induction ps with
  | nil => intro hnm; rfl
  | cons p r ih =>
    intro hnm
    unfold findPairIdx
    rw [hnm p (List.mem_cons_self p r),
      ih fun q hq => hnm q (List.mem_cons_of_mem p hq)]

theorem findPairIdx_setPairVal (s : Store) (name : List Nat) :
    ∀ (ps : List (Nat × Nat)) (i v : Nat),
    findPairIdx s (setPairVal ps i v) name = findPairIdx s ps name := by
  intro ps
  induction ps with
  | nil =>
    intro i v
    cases i <;> rfl
  | cons p r ih =>
    intro i v
    cases i with
    | zero => rfl
    | succ i =>
      show findPairIdx s (p :: setPairVal r i v) name = _
      unfold findPairIdx
      rw [ih i v]

theorem findPairIdx_some (s : Store) (name : List Nat) :
    ∀ (ps : List (Nat × Nat)) (i : Nat),
    findPairIdx s ps name = some i →
    ∃ p, ps[i]? = some p ∧ nameOf s p.1 = some name := by
  intro ps
  induction ps with
  | nil =>
    intro i h
    cases h
  | cons p r ih =>
    intro i h
    unfold findPairIdx at h
    by_cases hn : nameOf s p.1 = some name
    · rw [if_pos hn] at h
      injection h with h2
      cases h2
      exact ⟨p, by simp, hn⟩
    · rw [if_neg hn] at h
      cases hf : findPairIdx s r name with
      | none =>
        rw [hf] at h
        cases h
      | some j =>
        rw [hf] at h
        injection h with h2
        cases h2
        obtain ⟨q, hq1, hq2⟩ := ih j hf
        exact ⟨q, by simpa using hq1, hq2⟩

theorem findPairIdx_none_forall (s : Store) (name : List Nat) :
    ∀ ps : List (Nat × Nat), findPairIdx s ps name = none →
    ∀ p ∈ ps, ¬ nameOf s p.1 = some name := by
  intro ps
  induction ps with
  | nil =>
    intro h p hp
    simp at hp
  | cons p r ih =>
    intro h q hq
    unfold findPairIdx at h
    by_cases hn : nameOf s p.1 = some name
    · rw [if_pos hn] at h
      cases h
    · rw [if_neg hn] at h
      rcases List.mem_cons.mp hq with h1 | h1
      · rw [h1]
        exact hn
      · cases hf : findPairIdx s r name with
        | none => exact ih hf q h1
        | some j =>
          rw [hf] at h
          cases h

theorem findPairIdx_append_hit (s : Store) (name : List Nat) (hn v : Nat)
    (hname : nameOf s hn = some name) :
    ∀ ps : List (Nat × Nat), (∀ p ∈ ps, ¬ nameOf s p.1 = some name) →
    findPairIdx s (ps ++ [(hn, v)]) name = some ps.length := by
  intro ps
  induction ps with
  | nil =>
    intro hmiss
    show findPairIdx s ((hn, v) :: []) name = some 0
    unfold findPairIdx
    rw [if_pos hname]
  | cons p r ih =>
    intro hmiss
    show findPairIdx s (p :: (r ++ [(hn, v)])) name = some (r.length + 1)
    unfold findPairIdx
    rw [if_neg (hmiss p (List.mem_cons_self p r)),
      ih fun q hq => hmiss q (List.mem_cons_of_mem p hq)]
    rfl

theorem mapLookup_of_decode {s : Store} {m cap : Nat}
    {ps : List (Nat × Nat)} {name : List Nat}
    (hd : mapDecode s m = some (cap, ps)) :
    mapLookup s m name =
      match findPairIdx s ps name with
      | some i => (ps[i]?).map fun p => p.2
      | none => none := by
  unfold mapLookup
  rw [hd]

theorem cora_map_length_of_decode {s : Store} {m cap : Nat}
    {ps : List (Nat × Nat)} (hd : mapDecode s m = some (cap, ps)) :
    cora_map_length s m = ps.length := by
  unfold cora_map_length
  rw [hd]

@[simp] theorem encString_length (x : List Nat) :
    (encString x).length = 8 + x.length := by
  unfold encString
  rw [List.length_append, encLE_length]

/-! ## Capacity fast paths -/

/-- When capacity already suffices, allocation takes the no-resize path. -/
theorem allocObj_capacity {s : Store} {bs : List Nat} {tag : CoraType}
    (h : s.used + bs.length ≤ s.memLen) :
    allocObj s bs tag = (some s.objects.length,
      { s with objects := s.objects ++ [⟨s.used, bs.length, tag, true⟩],
               used := s.used + bs.length,
               memory := writeBytes s.memory s.used bs }) := by
  unfold allocObj ensureCapacity
  rw [if_pos h]

/-- When capacity already suffices, a growing резize succeeds. -/
theorem objResize_capacity_true {s : Store} {h n : Nat} {e : Entry}
    (he : s.objects[h]? = some e) (hl : e.live = true) (hlt : e.size < n)
    (hcap : s.used + n ≤ s.memLen) : (objResize s h n).1 = true := by
  unfold objResize ensureCapacity
  simp only [he]
  rw [if_pos hl, if_neg (show ¬ n ≤ e.size by omega), if_pos hcap]

/-! ## List operation specifications -/

theorem cora_list_append_of_decode {s : Store} {l x cap : Nat}
    {xs : List Nat} (hd : listDecode s l = some (cap, xs)) :
    cora_list_append s l x =
      if xs.length < cap then
        (true, writeObj s l (encListPayload cap (xs ++ [x])), l)
      else
        match objResize s l (8 + 8 * max 1 (2 * cap)) with
        | (false, s1) => (false, s1, l)
        | (true, s1) =>
          (true, writeObj s1 l (encListPayload (max 1 (2 * cap)) (xs ++ [x])),
            l) := by
  unfold cora_list_append
  rw [hd]

theorem cora_list_append_of_none {s : Store} {l x : Nat}
    (hd : listDecode s l = none) : cora_list_append s l x = (false, s, l) := by
  unfold cora_list_append
  rw [hd]

/-- A successful append keeps the handle value, appends the element,
leaves every other handle's resolved bytes unchanged, and preserves
well-formedness. -/
theorem cora_list_append_spec {s : Store} {l x cap : Nat} {xs : List Nat}
    {s1 : Store} {l1 : Nat}
    (hwf : WF s) (hd : listDecode s l = some (cap, xs))
    (hcap : cap < 2 ^ 63) (hx : ∀ y ∈ xs, y < 2 ^ 64) (hxx : x < 2 ^ 64)
    (hr : cora_list_append s l x = (true, s1, l1)) :
    l1 = l ∧
    (∃ cap2, listDecode s1 l = some (cap2, xs ++ [x])) ∧
    (∀ h2, h2 ≠ l → resolve s1 h2 = resolve s h2) ∧
    WF s1 := by
  obtain ⟨e, he, hl, htag, hsz, hlen⟩ := listDecode_some hd
  have hx2 : ∀ y ∈ xs ++ [x], y < 2 ^ 64 := by
    intro y hy
    rcases List.mem_append.mp hy with h1 | h1
    · exact hx y h1
    · rcases List.mem_cons.mp h1 with h2 | h2
      · rw [h2]; exact hxx
      · simp at h2
  rw [cora_list_append_of_decode hd] at hr
  by_cases hfull : xs.length < cap
  · rw [if_pos hfull] at hr
    cases hr
    refine ⟨rfl, ⟨cap, ?_⟩, ?_, ?_⟩
    · exact listDecode_write (xs ++ [x]) hwf he hl htag hsz
        (by rw [List.length_append]; simpa using hfull)
        (by rw [List.length_append]; simp only [List.length_cons,
          List.length_nil]; omega) hx2
    · intro h2 hne
      exact writeObj_frame hwf he hl
        (by rw [encListPayload_length (by simp; omega), hsz]) hne
    · exact writeObj_WF hwf he hl
        (by rw [encListPayload_length (by simp; omega), hsz])
  · rw [if_neg hfull] at hr
    cases hro : objResize s l (8 + 8 * max 1 (2 * cap)) with
    | mk ok s2 =>
      cases ok
      · rw [hro] at hr
        exact absurd (congrArg (fun p => p.1) hr) (by simp)
      · rw [hro] at hr
        cases hr
        obtain ⟨-, ⟨e1, he1, hl1, htag1, hsz1⟩, -, -, hrframe, -, -, -, -,
          hwf2⟩ := objResize_true hwf he hro
        have hlen2 : (xs ++ [x]).length ≤ max 1 (2 * cap) := by
          rw [List.length_append]
          simp only [List.length_cons, List.length_nil]
          omega
        have hsz2 : (encListPayload (max 1 (2 * cap)) (xs ++ [x])).length =
            e1.size := by
          rw [encListPayload_length hlen2, hsz1]
        refine ⟨rfl, ⟨max 1 (2 * cap), ?_⟩, ?_, ?_⟩
        · exact listDecode_write (xs ++ [x]) hwf2 he1 hl1
            (htag1.trans htag) hsz1 hlen2
            (by rw [List.length_append]; simp only [List.length_cons,
              List.length_nil]; omega) hx2
        · intro h2 hne
          rw [writeObj_frame hwf2 he1 hl1 hsz2 hne, hrframe h2 hne]
        · exact writeObj_WF hwf2 he1 hl1 hsz2

/-- A failed append changes at most the host-callback call counter, and
does not move the handle. -/
theorem cora_list_append_false {s : Store} {l x : Nat} {s1 : Store}
    {l1 : Nat} (hr : cora_list_append s l x = (false, s1, l1)) :
    s1 = { s with calls := s1.calls } ∧ l1 = l := by
  cases hd : listDecode s l with
  | none =>
    rw [cora_list_append_of_none hd] at hr
    cases hr
    exact ⟨rfl, rfl⟩
  | some p =>
    cases p with
    | mk cap xs =>
      rw [cora_list_append_of_decode hd] at hr
      by_cases hfull : xs.length < cap
      · rw [if_pos hfull] at hr
        exact absurd (congrArg (fun p => p.1) hr) (by simp)
      · rw [if_neg hfull] at hr
        cases hro : objResize s l (8 + 8 * max 1 (2 * cap)) with
        | mk ok s2 =>
          cases ok
          · rw [hro] at hr
            cases hr
            exact ⟨objResize_false hro, rfl⟩
          · rw [hro] at hr
            exact absurd (congrArg (fun p => p.1) hr) (by simp)

theorem cora_list_insert_of_decode {s : Store} {l x index cap : Nat}
    {xs : List Nat} (hd : listDecode s l = some (cap, xs)) :
    cora_list_insert s l x index =
      if xs.length < cap then
        (true, writeObj s l (encListPayload cap (insertAt xs index x)), l)
      else
        match objResize s l (8 + 8 * max 1 (2 * cap)) with
        | (false, s1) => (false, s1, l)
        | (true, s1) =>
          (true,
            writeObj s1 l (encListPayload (max 1 (2 * cap))
              (insertAt xs index x)), l) := by
  unfold cora_list_insert
  rw [hd]

theorem cora_list_insert_of_none {s : Store} {l x index : Nat}
    (hd : listDecode s l = none) :
    cora_list_insert s l x index = (false, s, l) := by
  unfold cora_list_insert
  rw [hd]

/-- A successful insert keeps the handle value and inserts at the clamped
position. -/
theorem cora_list_insert_spec {s : Store} {l x index cap : Nat}
    {xs : List Nat} {s1 : Store} {l1 : Nat}
    (hwf : WF s) (hd : listDecode s l = some (cap, xs))
    (hcap : cap < 2 ^ 63) (hx : ∀ y ∈ xs, y < 2 ^ 64) (hxx : x < 2 ^ 64)
    (hr : cora_list_insert s l x index = (true, s1, l1)) :
    l1 = l ∧
    (∃ cap2, listDecode s1 l = some (cap2, insertAt xs index x)) ∧
    (∀ h2, h2 ≠ l → resolve s1 h2 = resolve s h2) ∧
    WF s1 := by
  obtain ⟨e, he, hl, htag, hsz, hlen⟩ := listDecode_some hd
  have hx2 : ∀ y ∈ insertAt xs index x, y < 2 ^ 64 := by
    intro y hy
    rcases insertAt_mem hy with h1 | h1
    · exact hx y h1
    · rw [h1]; exact hxx
  have hilen := insertAt_length xs index x
  rw [cora_list_insert_of_decode hd] at hr
  by_cases hfull : xs.length < cap
  · rw [if_pos hfull] at hr
    cases hr
    refine ⟨rfl, ⟨cap, ?_⟩, ?_, ?_⟩
    · exact listDecode_write (insertAt xs index x) hwf he hl htag hsz
        (by omega) (by omega) hx2
    · intro h2 hne
      exact writeObj_frame hwf he hl
        (by rw [encListPayload_length (by omega), hsz]) hne
    · exact writeObj_WF hwf he hl
        (by rw [encListPayload_length (by omega), hsz])
  · rw [if_neg hfull] at hr
    cases hro : objResize s l (8 + 8 * max 1 (2 * cap)) with
    | mk ok s2 =>
      cases ok
      · rw [hro] at hr
        exact absurd (congrArg (fun p => p.1) hr) (by simp)
      · rw [hro] at hr
        cases hr
        obtain ⟨-, ⟨e1, he1, hl1, htag1, hsz1⟩, -, -, hrframe, -, -, -, -,
          hwf2⟩ := objResize_true hwf he hro
        have hlen2 : (insertAt xs index x).length ≤ max 1 (2 * cap) := by
          omega
        have hsz2 : (encListPayload (max 1 (2 * cap))
            (insertAt xs index x)).length = e1.size := by
          rw [encListPayload_length hlen2, hsz1]
        refine ⟨rfl, ⟨max 1 (2 * cap), ?_⟩, ?_, ?_⟩
        · exact listDecode_write (insertAt xs index x) hwf2 he1 hl1
            (htag1.trans htag) hsz1 hlen2 (by omega) hx2
        · intro h2 hne
          rw [writeObj_frame hwf2 he1 hl1 hsz2 hne, hrframe h2 hne]
        · exact writeObj_WF hwf2 he1 hl1 hsz2

/-- A failed insert changes at most the host-callback call counter. -/
theorem cora_list_insert_false {s : Store} {l x index : Nat} {s1 : Store}
    {l1 : Nat} (hr : cora_list_insert s l x index = (false, s1, l1)) :
    s1 = { s with calls := s1.calls } ∧ l1 = l := by
  cases hd : listDecode s l with
  | none =>
    rw [cora_list_insert_of_none hd] at hr
    cases hr
    exact ⟨rfl, rfl⟩
  | some p =>
    cases p with
    | mk cap xs =>
      rw [cora_list_insert_of_decode hd] at hr
      by_cases hfull : xs.length < cap
      · rw [if_pos hfull] at hr
        exact absurd (congrArg (fun p => p.1) hr) (by simp)
      · rw [if_neg hfull] at hr
        cases hro : objResize s l (8 + 8 * max 1 (2 * cap)) with
        | mk ok s2 =>
          cases ok
          · rw [hro] at hr
            cases hr
            exact ⟨objResize_false hro, rfl⟩
          · rw [hro] at hr
            exact absurd (congrArg (fun p => p.1) hr) (by simp)

theorem cora_list_del_of_decode {s : Store} {l x index cap : Nat}
    {xs : List Nat} (hd : listDecode s l = some (cap, xs)) :
    cora_list_del s l x index =
      if index < xs.length then
        (writeObj s l (encListPayload cap (xs.eraseIdx index)), l)
      else (s, l) := by
  unfold cora_list_del
  rw [hd]

theorem cora_list_del_of_none {s : Store} {l x index : Nat}
    (hd : listDecode s l = none) : cora_list_del s l x index = (s, l) := by
  unfold cora_list_del
  rw [hd]

/-- Deleting at an index at or past the end of the list does nothing. -/
theorem cora_list_del_noop {s : Store} {l x index cap : Nat} {xs : List Nat}
    (hd : listDecode s l = some (cap, xs)) (hge : xs.length ≤ index) :
    cora_list_del s l x index = (s, l) := by
  rw [cora_list_del_of_decode hd, if_neg (by omega)]

/-! ## Map operation specifications -/

theorem nameOf_isSome {s : Store} {h : Nat}
    (hi : (nameOf s h).isSome = true) :
    ∃ e, s.objects[h]? = some e ∧ e.live = true ∧
      e.tag = CoraType.string := by
  cases he : s.objects[h]? with
  | none =>
    rw [nameOf_of_none he] at hi
    cases hi
  | some e =>
    rw [nameOf_of_entry he] at hi
    by_cases hc : e.live = true ∧ e.tag = CoraType.string
    · exact ⟨e, rfl, hc.1, hc.2⟩
    · rw [if_neg hc] at hi
      cases hi

/-- Writing through a live map handle changes no interned name. -/
theorem nameOf_writeObj_map {s : Store} {m : Nat} {e : Entry}
    {bs : List Nat} (hwf : WF s) (he : s.objects[m]? = some e)
    (hl : e.live = true) (hsz : bs.length = e.size)
    (htag : e.tag = CoraType.map) :
    ∀ h2, nameOf (writeObj s m bs) h2 = nameOf s h2 := by
  intro h2
  by_cases hne : h2 = m
  · subst hne
    have hof : (writeObj s h2 bs).objects[h2]? = some e := by
      rw [(writeObj_fields he hl hsz).1]
      exact he
    have hns : ¬ (e.live = true ∧ e.tag = CoraType.string) := by
      intro hc
      rw [htag] at hc
      cases hc.2
    rw [nameOf_of_entry hof, nameOf_of_entry he, if_neg hns, if_neg hns]
  · exact nameOf_congr (by rw [(writeObj_fields he hl hsz).1])
      (writeObj_frame hwf he hl hsz hne)

/-- Arena growth that preserves the used prefix preserves every resolve. -/
theorem resolve_pres_of_extract {s : Store} {L B C : Nat} {M : List Nat}
    (hwf : WF s)
    (hpres : ∀ a k, a + k ≤ s.memLen →
      extract M a k = extract s.memory a k) :
    ∀ h2, resolve
      { s with memLen := L, memory := M, base := B, calls := C } h2 =
      resolve s h2 := by
  intro h2
  have ho : ({ s with memLen := L, memory := M, base := B, calls := C } :
      Store).objects[h2]? = s.objects[h2]? := rfl
  cases he : s.objects[h2]? with
  | none => rw [resolve_of_none (ho.trans he), resolve_of_none he]
  | some e =>
    rw [resolve_of_entry (ho.trans he), resolve_of_entry he]
    by_cases hl : e.live = true
    · rw [if_pos hl, if_pos hl]
      have hb := WF_bound hwf he hl
      have hu := WF_used_le hwf
      show some (extract M e.offset e.size) =
        some (extract s.memory e.offset e.size)
      rw [hpres _ _ (by omega)]
    · rw [if_neg hl, if_neg hl]

theorem WF_ensure_upd {s : Store} {L B C : Nat} {M : List Nat}
    (hwf : WF s) (hL : s.memLen ≤ L) (hlen : M.length = L) :
    WF { s with memLen := L, memory := M, base := B, calls := C } := by
  refine ⟨hlen, ?_, hwf.2.2.1, hwf.2.2.2⟩
  show s.used ≤ L
  have := WF_used_le hwf
  omega

theorem cora_map_insert_of_decode {s : Store} {m v cap : Nat}
    {name : List Nat} {ps : List (Nat × Nat)}
    (hd : mapDecode s m = some (cap, ps)) :
    cora_map_insert s m name v =
      match findPairIdx s ps name with
      | some i => (true, writeObj s m (encMapPayload cap (setPairVal ps i v)))
      | none =>
        match ensureCapacity s (s.used + (8 + name.length) +
            (if ps.length < cap then 0 else 8 + 16 * max 1 (2 * cap))) with
        | (false, s1) => (false, s1)
        | (true, s1) =>
          match allocObj s1 (encString name) CoraType.string with
          | (none, s2) => (false, s2)
          | (some hn, s2) =>
            if ps.length < cap then
              (true, writeObj s2 m (encMapPayload cap (ps ++ [(hn, v)])))
            else
              match objResize s2 m (8 + 16 * max 1 (2 * cap)) with
              | (false, s3) => (false, s3)
              | (true, s3) =>
                (true, writeObj s3 m
                  (encMapPayload (max 1 (2 * cap)) (ps ++ [(hn, v)]))) := by
  unfold cora_map_insert
  rw [hd]

theorem cora_map_insert_of_none {s : Store} {m v : Nat} {name : List Nat}
    (hd : mapDecode s m = none) :
    cora_map_insert s m name v = (false, s) := by
  unfold cora_map_insert
  rw [hd]

/-- Inserting an already-present name replaces its value handle in place:
same length, the name now maps to the new value, no handle is freed, and
every other handle's resolved bytes are untouched. -/
theorem cora_map_insert_replace {s : Store} {m v cap i : Nat}
    {name : List Nat} {ps : List (Nat × Nat)}
    (hwf : WF s) (hd : mapDecode s m = some (cap, ps))
    (hfind : findPairIdx s ps name = some i) (hv : v < 2 ^ 64)
    (hx : ∀ p ∈ ps, p.1 < 2 ^ 64 ∧ p.2 < 2 ^ 64)
    (hlen64 : ps.length < 2 ^ 64) :
    (cora_map_insert s m name v).1 = true ∧
    mapDecode (cora_map_insert s m name v).2 m =
      some (cap, setPairVal ps i v) ∧
    cora_map_length (cora_map_insert s m name v).2 m = ps.length ∧
    mapLookup (cora_map_insert s m name v).2 m name = some v ∧
    ((cora_map_insert s m name v).2).objects = s.objects ∧
    (∀ h2, h2 ≠ m →
      resolve ((cora_map_insert s m name v).2) h2 = resolve s h2) ∧
    WF (cora_map_insert s m name v).2 := by
  obtain ⟨e, he, hl, htag, hsz, hlen⟩ := mapDecode_some hd
  have heq := @cora_map_insert_of_decode s m v cap name ps hd
  rw [hfind] at heq
  rw [heq]
  have hslen := setPairVal_length ps i v
  have hsz2 : (encMapPayload cap (setPairVal ps i v)).length = e.size := by
    rw [encMapPayload_length (by omega), hsz]
  have hx2 := setPairVal_bound hv ps i hx
  have hdec2 : mapDecode (writeObj s m
      (encMapPayload cap (setPairVal ps i v))) m =
      some (cap, setPairVal ps i v) :=
    mapDecode_write (setPairVal ps i v) hwf he hl htag hsz (by omega)
      (by omega) hx2
  have hnm := nameOf_writeObj_map hwf he hl hsz2 htag
  refine ⟨rfl, hdec2, ?_, ?_, (writeObj_fields he hl hsz2).1, ?_, ?_⟩
  · rw [cora_map_length_of_decode hdec2, hslen]
  · rw [mapLookup_of_decode hdec2]
    have hf2 : findPairIdx (writeObj s m
        (encMapPayload cap (setPairVal ps i v))) (setPairVal ps i v) name =
        some i := by
      rw [findPairIdx_congr (setPairVal ps i v) fun p _ => hnm p.1,
        findPairIdx_setPairVal, hfind]
    rw [hf2]
    obtain ⟨p, hp1, hp2⟩ := findPairIdx_some s name ps i hfind
    show ((setPairVal ps i v)[i]?).map (fun p => p.2) = some v
    rw [setPairVal_get_self ps i v (getElem?_some_lt hp1), hp1]
    rfl
  · intro h2 hne
    exact writeObj_frame hwf he hl hsz2 hne
  · exact writeObj_WF hwf he hl hsz2

/-- Inserting an absent name interns the name as a fresh string object and
appends the pair: the length grows by one, the name maps to the value, and
every previously existing handle other than the map resolves
identically. -/
theorem cora_map_insert_absent {s : Store} {m v cap : Nat}
    {name : List Nat} {ps : List (Nat × Nat)} {s1 : Store}
    (hwf : WF s) (hd : mapDecode s m = some (cap, ps))
    (hfind : findPairIdx s ps name = none)
    (hv : v < 2 ^ 64) (hname : name.length < 2 ^ 64)
    (hhn : s.objects.length < 2 ^ 64)
    (hx : ∀ p ∈ ps, p.1 < 2 ^ 64 ∧ p.2 < 2 ^ 64)
    (hnames : ∀ p ∈ ps, (nameOf s p.1).isSome = true)
    (hcap : cap < 2 ^ 63)
    (hr : cora_map_insert s m name v = (true, s1)) :
    (∃ cap2 hn, mapDecode s1 m = some (cap2, ps ++ [(hn, v)]) ∧
      nameOf s1 hn = some name) ∧
    cora_map_length s1 m = ps.length + 1 ∧
    mapLookup s1 m name = some v ∧
    (∀ h2, h2 ≠ m → h2 < s.objects.length → resolve s1 h2 = resolve s h2) ∧
    WF s1 := by
  obtain ⟨e, he, hl, htag, hsz, hlen⟩ := mapDecode_some hd
  have hmlt := getElem?_some_lt he
  have heq := @cora_map_insert_of_decode s m v cap name ps hd
  rw [heq] at hr
  simp only [hfind] at hr
  cases hec : ensureCapacity s (s.used + (8 + name.length) +
      (if ps.length < cap then 0 else 8 + 16 * max 1 (2 * cap))) with
  | mk ok sE =>
    cases ok
    · simp only [hec] at hr
      exact absurd (congrArg (fun p => p.1) hr) (by simp)
    · simp only [hec] at hr
      obtain ⟨hcapE, hmonoE, hmlenE, husedE, hobjE, -, -, hpresE⟩ :=
        ensureCapacity_true (WF_memory_length hwf) hec
      have hwfE : WF sE := by
        refine ⟨hmlenE, ?_, ?_, ?_⟩
        · rw [husedE]
          have := WF_used_le hwf
          omega
        · rw [hobjE, husedE]
          exact hwf.2.2.1
        · rw [hobjE]
          exact hwf.2.2.2
      have ho2 : ∀ h2 : Nat, sE.objects[h2]? = s.objects[h2]? := by
        intro h2
        rw [hobjE]
      have hresE : ∀ h2 : Nat, resolve sE h2 = resolve s h2 := by
        intro h2
        cases he2 : s.objects[h2]? with
        | none => rw [resolve_of_none ((ho2 h2).trans he2),
            resolve_of_none he2]
        | some e2 =>
          rw [resolve_of_entry ((ho2 h2).trans he2), resolve_of_entry he2]
          by_cases hl2 : e2.live = true
          · rw [if_pos hl2, if_pos hl2]
            have hb2 := WF_bound hwf he2 hl2
            have hu2 := WF_used_le hwf
            show some (extract sE.memory e2.offset e2.size) =
              some (extract s.memory e2.offset e2.size)
            rw [hpresE _ _ (by omega)]
          · rw [if_neg hl2, if_neg hl2]
      have hnameE : ∀ h2 : Nat, nameOf sE h2 = nameOf s h2 := fun h2 =>
        nameOf_congr (ho2 h2) (hresE h2)
      cases hao : allocObj sE (encString name) CoraType.string with
      | mk r s2 =>
        simp only [hao] at hr
        cases r with
        | none =>
          have hcapA : sE.used + (encString name).length ≤ sE.memLen := by
            rw [husedE, encString_length]
            omega
          rw [allocObj_capacity hcapA] at hao
          cases hao
        | some hn =>
          obtain ⟨hhneq, hobj2, hused2, hmono2, -, -, hresS, -, hframe2,
            hwf2⟩ := allocObj_some hwfE hao
          have hnval : hn = s.objects.length := by
            rw [hhneq, hobjE]
          have hmne : m ≠ hn := by
            rw [hnval]
            omega
          have hEnt : s2.objects[hn]? =
              some ⟨sE.used, (encString name).length, CoraType.string,
                true⟩ := by
            rw [hobj2, hhneq, getElem?_append_single,
              if_neg (by omega), if_pos rfl]
          have heM2 : s2.objects[m]? = some e := by
            rw [hobj2, getElem?_append_single, if_pos (by
              rw [hobjE]; exact hmlt)]
            rw [ho2 m]
            exact he
          have hname2 : nameOf s2 hn = some name := by
            rw [nameOf_of_entry hEnt, if_pos ⟨rfl, rfl⟩]
            rw [resolve_of_entry hEnt, if_pos rfl] at hresS
            injection hresS with hresS2
            show some (decString (resolveBytes s2
              ⟨sE.used, (encString name).length, CoraType.string, true⟩)) =
              some name
            rw [hresS2, decString_encString hname]
          have hold2 : ∀ h2 : Nat, h2 ≠ hn → h2 < s.objects.length →
              s2.objects[h2]? = s.objects[h2]? := by
            intro h2 hne2 hlt2
            rw [hobj2, getElem?_append_single, if_pos (by
              rw [hobjE]; exact hlt2)]
            exact ho2 h2
          have hnm2 : ∀ h2 : Nat, h2 ≠ hn → h2 < s.objects.length →
              nameOf s2 h2 = nameOf s h2 := by
            intro h2 hne2 hlt2
            rw [nameOf_congr (Eq.trans (hold2 h2 hne2 hlt2)
              (ho2 h2).symm) (hframe2 h2 hne2), hnameE h2]
          have hpfacts : ∀ p ∈ ps, p.1 ≠ hn ∧ p.1 ≠ m ∧
              p.1 < s.objects.length := by
            intro p hp
            obtain ⟨ep, hep, hepl, hept⟩ := nameOf_isSome (hnames p hp)
            have hplt := getElem?_some_lt hep
            refine ⟨by omega, ?_, hplt⟩
            intro hc
            rw [hc, he] at hep
            injection hep with hep2
            rw [← hep2] at hept
            rw [htag] at hept
            cases hept
          have hmiss2 : ∀ p ∈ ps, ¬ nameOf s2 p.1 = some name := by
            intro p hp
            obtain ⟨hne1, -, hlt1⟩ := hpfacts p hp
            rw [hnm2 p.1 hne1 hlt1]
            exact findPairIdx_none_forall s name ps hfind p hp
          have hxall : ∀ p ∈ ps ++ [(hn, v)], p.1 < 2 ^ 64 ∧
              p.2 < 2 ^ 64 := by
            intro p hp
            rcases List.mem_append.mp hp with h1 | h1
            · exact hx p h1
            · rcases List.mem_cons.mp h1 with h2 | h2
              · rw [h2]
                exact ⟨by rw [hnval] at *; simpa using hhn, hv⟩
              · simp at h2
          by_cases hfull : ps.length < cap
          · simp only [if_pos hfull] at hr
            cases hr
            have hsz3 : (encMapPayload cap (ps ++ [(hn, v)])).length =
                e.size := by
              rw [encMapPayload_length (by
                rw [List.length_append]
                simp only [List.length_cons, List.length_nil]
                omega), hsz]
            have hdecW := mapDecode_write (ps ++ [(hn, v)]) hwf2 heM2 hl
              htag hsz (by
                rw [List.length_append]
                simp only [List.length_cons, List.length_nil]
                omega)
              (by rw [List.length_append]
                  simp only [List.length_cons, List.length_nil]
                  omega) hxall
            have hnmW := nameOf_writeObj_map hwf2 heM2 hl hsz3 htag
            have hnameW : nameOf (writeObj s2 m
                (encMapPayload cap (ps ++ [(hn, v)]))) hn = some name := by
              rw [hnmW hn, hname2]
            refine ⟨⟨cap, hn, hdecW, hnameW⟩, ?_, ?_, ?_, ?_⟩
            · rw [cora_map_length_of_decode hdecW, List.length_append]
              simp
            · rw [mapLookup_of_decode hdecW]
              have hfi : findPairIdx (writeObj s2 m
                  (encMapPayload cap (ps ++ [(hn, v)])))
                  (ps ++ [(hn, v)]) name = some ps.length := by
                apply findPairIdx_append_hit _ _ _ _ hnameW
                intro p hp
                rw [hnmW p.1]
                exact hmiss2 p hp
              rw [hfi]
              show ((ps ++ [(hn, v)])[ps.length]?).map
                (fun p => p.2) = some v
              rw [getElem?_append_single, if_neg (by omega), if_pos rfl]
              rfl
            · intro h2 hne2 hlt2
              rw [writeObj_frame hwf2 heM2 hl hsz3 hne2,
                hframe2 h2 (by omega), hresE h2]
            · exact writeObj_WF hwf2 heM2 hl hsz3
          · simp only [if_neg hfull] at hr
            rw [if_neg hfull] at hcapE
            have hres1 := objResize_capacity_true heM2 hl
              (by rw [hsz]
                  show 8 + 16 * cap < 8 + 16 * max 1 (2 * cap)
                  omega)
              (by rw [hused2, husedE, encString_length]
                  have h2m := hmono2
                  omega)
            cases hro : objResize s2 m (8 + 16 * max 1 (2 * cap)) with
            | mk ok2 s3 =>
              rw [hro] at hres1
              simp only [hro] at hr
              cases ok2
              · cases hres1
              · cases hr
                obtain ⟨-, ⟨e3, he3, hl3, htag3, hsz3⟩, -, hof3, hrf3, -,
                  -, -, -, hwf3⟩ := objResize_true hwf2 heM2 hro
                have htag3m : e3.tag = CoraType.map := htag3.trans htag
                have hlenA : (ps ++ [(hn, v)]).length = ps.length + 1 := by
                  rw [List.length_append]
                  simp
                have hsz4 : (encMapPayload (max 1 (2 * cap))
                    (ps ++ [(hn, v)])).length = e3.size := by
                  rw [encMapPayload_length (by omega), hsz3]
                have hdecW := mapDecode_write (ps ++ [(hn, v)]) hwf3 he3
                  hl3 htag3m hsz3 (by omega) (by omega) hxall
                have hnm3 : ∀ h2 : Nat, h2 ≠ m → nameOf s3 h2 = nameOf s2 h2 := by
                  intro h2 hne2
                  exact nameOf_congr (hof3 h2 hne2) (hrf3 h2 hne2)
                have hnmW := nameOf_writeObj_map hwf3 he3 hl3 hsz4 htag3m
                have hnameW : nameOf (writeObj s3 m
                    (encMapPayload (max 1 (2 * cap)) (ps ++ [(hn, v)])))
                    hn = some name := by
                  rw [hnmW hn, hnm3 hn (fun c => hmne c.symm), hname2]
                refine ⟨⟨max 1 (2 * cap), hn, hdecW, hnameW⟩, ?_, ?_, ?_,
                  ?_⟩
                · rw [cora_map_length_of_decode hdecW, hlenA]
                · rw [mapLookup_of_decode hdecW]
                  have hfi : findPairIdx (writeObj s3 m
                      (encMapPayload (max 1 (2 * cap)) (ps ++ [(hn, v)])))
                      (ps ++ [(hn, v)]) name = some ps.length := by
                    apply findPairIdx_append_hit _ _ _ _ hnameW
                    intro p hp
                    obtain ⟨hne1, hnem, -⟩ := hpfacts p hp
                    rw [hnmW p.1, hnm3 p.1 hnem]
                    exact hmiss2 p hp
                  rw [hfi]
                  show ((ps ++ [(hn, v)])[ps.length]?).map
                    (fun p => p.2) = some v
                  rw [getElem?_append_single, if_neg (by omega),
                    if_pos rfl]
                  rfl
                · intro h2 hne2 hlt2
                  rw [writeObj_frame hwf3 he3 hl3 hsz4 hne2,
                    hrf3 h2 hne2, hframe2 h2 (by omega), hresE h2]
                · exact writeObj_WF hwf3 he3 hl3 hsz4

/-! ## Consequences of visible-state equality -/

theorem visible_parts {s1 s : Store} (h : s1.visible = s.visible) :
    s1.base = s.base ∧ s1.memLen = s.memLen ∧ s1.memory = s.memory ∧
    s1.used = s.used ∧ s1.objects = s.objects ∧ s1.symbols = s.symbols ∧
    s1.values = s.values := by
  simp only [Store.visible, Prod.mk.injEq] at h
  exact h

theorem visible_of_calls {s : Store} {c : Nat} :
    ({ s with calls := c } : Store).visible = s.visible := rfl

theorem listDecode_congr {s1 s : Store} (ho : s1.objects = s.objects)
    (hm : s1.memory = s.memory) (l : Nat) :
    listDecode s1 l = listDecode s l := by
  cases he : s.objects[l]? with
  | none =>
    rw [listDecode_of_none (by rw [ho]; exact he), listDecode_of_none he]
  | some e =>
    rw [listDecode_of_entry (show s1.objects[l]? = some e by
      rw [ho]; exact he), listDecode_of_entry he]
    unfold resolveBytes
    rw [hm]

theorem mapDecode_congr {s1 s : Store} (ho : s1.objects = s.objects)
    (hm : s1.memory = s.memory) (m : Nat) :
    mapDecode s1 m = mapDecode s m := by
  cases he : s.objects[m]? with
  | none =>
    rw [mapDecode_of_none (by rw [ho]; exact he), mapDecode_of_none he]
  | some e =>
    rw [mapDecode_of_entry (show s1.objects[m]? = some e by
      rw [ho]; exact he), mapDecode_of_entry he]
    unfold resolveBytes
    rw [hm]

/-! ## Refusal paths -/

/-- When growth is needed and the host refuses, allocation fails. -/
theorem allocObj_refused {s : Store} {bs : List Nat} {tag : CoraType}
    (hfull : s.memLen < s.used + bs.length)
    (hrefuse : (s.grants[s.calls]?).getD none = none) :
    (allocObj s bs tag).1 = none := by
  unfold allocObj ensureCapacity tryExpand
  rw [if_neg (by omega), if_neg (by
    have := le_max_left (s.used + bs.length) (2 * s.memLen)
    omega), hrefuse]

@[simp] theorem encInt64_length (x : Int) : (encInt64 x).length = 8 := by
  unfold encInt64
  rw [encLE_length]

/-- A refused growth request makes `cora_int` report failure. -/
theorem cora_int_refused {s : Store} {x : Int}
    (hfull : s.memLen < s.used + 8)
    (hrefuse : (s.grants[s.calls]?).getD none = none) :
    (cora_int s x).1 = none := by
  unfold cora_int
  apply allocObj_refused (by rw [encInt64_length]; omega) hrefuse

/-- When growth is needed and the host refuses, object resize fails. -/
theorem objResize_refused {s : Store} {h n : Nat} {e : Entry}
    (he : s.objects[h]? = some e) (hl : e.live = true) (hlt : e.size < n)
    (hfull : s.memLen < s.used + n)
    (hrefuse : (s.grants[s.calls]?).getD none = none) :
    (objResize s h n).1 = false := by
  unfold objResize ensureCapacity tryExpand
  simp only [he]
  rw [if_pos hl, if_neg (show ¬ n ≤ e.size by omega), if_neg (by omega),
    if_neg (by
      have := le_max_left (s.used + n) (2 * s.memLen)
      omega), hrefuse]

/-- A list append that must grow a full list fails when the host
refuses. -/
theorem cora_list_append_refused {s : Store} {l x cap : Nat}
    {xs : List Nat} (hd : listDecode s l = some (cap, xs))
    (hfull : ¬ xs.length < cap)
    (hmem : s.memLen < s.used + (8 + 8 * max 1 (2 * cap)))
    (hrefuse : (s.grants[s.calls]?).getD none = none) :
    (cora_list_append s l x).1 = false := by
  obtain ⟨e, he, hl, htag, hsz, hlen⟩ := listDecode_some hd
  rw [cora_list_append_of_decode hd, if_neg hfull]
  have hro := objResize_refused he hl (by omega) hmem hrefuse
  cases hre : objResize s l (8 + 8 * max 1 (2 * cap)) with
  | mk ok s2 =>
    rw [hre] at hro
    cases ok
    · simp [hre]
    · cases hro

/-! ## Constructor round trips -/

theorem cora_int_spec {s : Store} {x : Int} {h : Nat} {s1 : Store}
    (hwf : WF s) (hr : cora_int s x = (some h, s1))
    (h1 : -(2 ^ 63) ≤ x) (h2 : x < 2 ^ 63) :
    resolveTag s1 h = some CoraType.int ∧
    (resolve s1 h).map decInt64 = some x := by
  obtain ⟨-, -, -, -, -, -, hres, htag, -, -⟩ := allocObj_some hwf hr
  refine ⟨htag, ?_⟩
  rw [hres]
  show some (decInt64 (encInt64 x)) = some x
  rw [decInt64_encInt64 h1 h2]

theorem cora_float_spec {s : Store} {bits h : Nat} {s1 : Store}
    (hwf : WF s) (hr : cora_float s bits = (some h, s1))
    (hb : bits < 2 ^ 64) :
    resolveTag s1 h = some CoraType.float ∧
    (resolve s1 h).map (decLE 8) = some bits := by
  obtain ⟨-, -, -, -, -, -, hres, htag, -, -⟩ := allocObj_some hwf hr
  refine ⟨htag, ?_⟩
  rw [hres]
  show some (decLE 8 (encLE 8 bits)) = some bits
  rw [decLE_encLE_of_lt (by norm_num; omega)]

theorem cora_char_spec {s : Store} {x h : Nat} {s1 : Store}
    (hwf : WF s) (hr : cora_char s x = (some h, s1)) (hx : x < 2 ^ 32) :
    resolveTag s1 h = some CoraType.char ∧
    (resolve s1 h).map (decLE 4) = some x := by
  obtain ⟨-, -, -, -, -, -, hres, htag, -, -⟩ := allocObj_some hwf hr
  refine ⟨htag, ?_⟩
  rw [hres]
  show some (decLE 4 (encLE 4 x)) = some x
  rw [decLE_encLE_of_lt (by norm_num; omega)]

theorem cora_bool_spec {s : Store} {b : Bool} {h : Nat} {s1 : Store}
    (hwf : WF s) (hr : cora_bool s b = (some h, s1)) :
    resolveTag s1 h = some CoraType.bool ∧
    (resolve s1 h).bind decBool = some b := by
  obtain ⟨-, -, -, -, -, -, hres, htag, -, -⟩ := allocObj_some hwf hr
  refine ⟨htag, ?_⟩
  rw [hres]
  cases b <;> rfl

theorem cora_string_spec {s : Store} {x : List Nat} {h : Nat} {s1 : Store}
    (hwf : WF s) (hr : cora_string s x = (some h, s1))
    (hx : x.length < 2 ^ 64) :
    resolveTag s1 h = some CoraType.string ∧
    (resolve s1 h).map decString = some x := by
  obtain ⟨-, -, -, -, -, -, hres, htag, -, -⟩ := allocObj_some hwf hr
  refine ⟨htag, ?_⟩
  rw [hres]
  show some (decString (encString x)) = some x
  rw [decString_encString hx]

/-! ## Native registry facts -/

theorem lookupFunction_defineFunction_self (r : Registry) (name : String)
    (f : Nat) : lookupFunction (defineFunction r name f) name = some f := by
  induction r with
  | nil =>
    unfold defineFunction lookupFunction
    rw [if_pos rfl]
  | cons p rest ih =>
    unfold defineFunction
    by_cases hp : p.1 = name
    · rw [if_pos hp]
      unfold lookupFunction
      rw [if_pos rfl]
    · rw [if_neg hp]
      unfold lookupFunction
      rw [if_neg hp]
      exact ih

theorem lookupFunction_defineFunction_other (r : Registry)
    (name other : String) (f : Nat) (hne : other ≠ name) :
    lookupFunction (defineFunction r name f) other =
      lookupFunction r other := by
  induction r with
  | nil =>
    unfold defineFunction lookupFunction
    rw [if_neg (by
      intro hc
      exact hne hc.symm)]
    rfl
  | cons p rest ih =>
    unfold defineFunction
    by_cases hp : p.1 = name
    · rw [if_pos hp]
      unfold lookupFunction
      rw [if_neg (by
        intro hc
        exact hne hc.symm), if_neg (by rw [hp]; intro hc; exact hne hc.symm)]
    · rw [if_neg hp]
      unfold lookupFunction
      by_cases hpo : p.1 = other
      · rw [if_pos hpo, if_pos hpo]
      · rw [if_neg hpo, if_neg hpo]
        exact ih

theorem countName_defineFunction (r : Registry) (name : String) (f : Nat) :
    countName (defineFunction r name f) name =
      max 1 (countName r name) := by
  induction r with
  | nil =>
    unfold defineFunction countName
    simp [List.countP_cons]
  | cons p rest ih =>
    unfold defineFunction
    by_cases hp : p.1 = name
    · rw [if_pos hp]
      unfold countName
      rw [List.countP_cons, List.countP_cons]
      simp only [hp]
      simp
    · rw [if_neg hp]
      unfold countName at ih ⊢
      rw [List.countP_cons, List.countP_cons, ih]
      have hb : (if (p.1 == name) = true then 1 else 0) = 0 := by
        simp [hp]
      rw [hb]
      omega


theorem cora_map_del_of_decode {s : Store} {m cap : Nat}
    {name : List Nat} {ps : List (Nat × Nat)}
    (hd : mapDecode s m = some (cap, ps)) :
    cora_map_del s m name =
      match findPairIdx s ps name with
      | some i => writeObj s m (encMapPayload cap (ps.eraseIdx i))
      | none => s := by
  unfold cora_map_del
  rw [hd]

theorem cora_map_del_of_none {s : Store} {m : Nat} {name : List Nat}
    (hd : mapDecode s m = none) : cora_map_del s m name = s := by
  unfold cora_map_del
  rw [hd]

/-- Deleting a name that is not present does nothing. -/
theorem cora_map_del_missing {s : Store} {m cap : Nat} {name : List Nat}
    {ps : List (Nat × Nat)} (hd : mapDecode s m = some (cap, ps))
    (hfind : findPairIdx s ps name = none) :
    cora_map_del s m name = s := by
  rw [cora_map_del_of_decode hd, hfind]

/-- Any failing insert changes at most the host-callback call counter. -/
theorem cora_map_insert_false {s : Store} {m v : Nat} {name : List Nat}
    {s1 : Store} (hwf : WF s)
    (hr : cora_map_insert s m name v = (false, s1)) :
    s1 = { s with calls := s1.calls } := by
  cases hd : mapDecode s m with
  | none =>
    rw [cora_map_insert_of_none hd] at hr
    cases hr
    rfl
  | some p =>
    cases p with
    | mk cap ps =>
      have heq := @cora_map_insert_of_decode s m v cap name ps hd
      rw [heq] at hr
      cases hfind : findPairIdx s ps name with
      | some i =>
        simp only [hfind] at hr
        exact absurd (congrArg (fun p => p.1) hr) (by simp)
      | none =>
        simp only [hfind] at hr
        cases hec : ensureCapacity s (s.used + (8 + name.length) +
            (if ps.length < cap then 0 else 8 + 16 * max 1 (2 * cap))) with
        | mk ok sE =>
          cases ok
          · simp only [hec] at hr
            cases hr
            rw [ensureCapacity_false hec]
          · simp only [hec] at hr
            obtain ⟨hcapE, hmonoE, hmlenE, husedE, hobjE, -, -, hpresE⟩ :=
              ensureCapacity_true (WF_memory_length hwf) hec
            have hwfE : WF sE := by
              refine ⟨hmlenE, ?_, ?_, ?_⟩
              · rw [husedE]
                have := WF_used_le hwf
                omega
              · rw [hobjE, husedE]
                exact hwf.2.2.1
              · rw [hobjE]
                exact hwf.2.2.2
            cases hao : allocObj sE (encString name) CoraType.string with
            | mk r s2 =>
              simp only [hao] at hr
              cases r with
              | none =>
                have hcapA : sE.used + (encString name).length ≤ sE.memLen := by
                  rw [husedE, encString_length]
                  omega
                rw [allocObj_capacity hcapA] at hao
                cases hao
              | some hn =>
                obtain ⟨-, hobj2, hused2, hmono2, -, -, -, -, -, hwf2⟩ :=
                  allocObj_some hwfE hao
                by_cases hfull : ps.length < cap
                · simp only [if_pos hfull] at hr
                  exact absurd (congrArg (fun p => p.1) hr) (by simp)
                · simp only [if_neg hfull] at hr
                  rw [if_neg hfull] at hcapE
                  obtain ⟨eM, heM, hlM, htagM, hszM, hlenM⟩ :=
                    mapDecode_some hd
                  have hmlt := getElem?_some_lt heM
                  have heM2 : s2.objects[m]? = some eM := by
                    rw [hobj2, getElem?_append_single, if_pos (by
                      rw [hobjE]; exact hmlt)]
                    rw [hobjE]
                    exact heM
                  have hres := objResize_capacity_true heM2 hlM
                    (by rw [hszM]
                        show 8 + 16 * cap < 8 + 16 * max 1 (2 * cap)
                        omega)
                    (by rw [hused2, husedE, encString_length]
                        have h2m := hmono2
                        omega)
                  cases hro : objResize s2 m (8 + 16 * max 1 (2 * cap)) with
                  | mk ok2 s3 =>
                    rw [hro] at hres
                    simp only [hro] at hr
                    cases ok2
                    · cases hres
                    · exact absurd (congrArg (fun p => p.1) hr) (by simp)

/-! ## The claims -/

/-- C1: Handle stability and relocation transparency — over every
invariant-satisfying run of allocations, writes through handles, object
resizes, arena growth events and frees (the host may move the base address
on every grant), a still-live handle resolves to exactly the bytes the
ghost record says were last written through it; a successful
`cora_list_append` returns the list handle unchanged and leaves every other
handle's resolved bytes byte-identical; and a successful capacity-growing
`cora_map_insert` likewise leaves every other previously-live handle's
resolved bytes byte-identical. -/
theorem claim_handle_stability :
    (∀ (ops : List Op) (s : Store) (g : Ghost), Inv s g →
      ∀ h : Nat, (resolve (runT (s, g) ops).1 h).isSome = true →
        (runT (s, g) ops).2[h]? = some (resolve (runT (s, g) ops).1 h)) ∧
    (∀ (s : Store) (l x : Nat) (s1 : Store) (l1 cap : Nat) (xs : List Nat),
      WF s → listDecode s l = some (cap, xs) → cap < 2 ^ 63 →
      (∀ y ∈ xs, y < 2 ^ 64) → x < 2 ^ 64 →
      cora_list_append s l x = (true, s1, l1) →
      l1 = l ∧ ∀ h2, h2 ≠ l → resolve s1 h2 = resolve s h2) ∧
    (∀ (s : Store) (m v cap : Nat) (name : List Nat)
      (ps : List (Nat × Nat)) (s1 : Store),
      WF s → mapDecode s m = some (cap, ps) →
      findPairIdx s ps name = none → v < 2 ^ 64 → name.length < 2 ^ 64 →
      s.objects.length < 2 ^ 64 →
      (∀ p ∈ ps, p.1 < 2 ^ 64 ∧ p.2 < 2 ^ 64) →
      (∀ p ∈ ps, (nameOf s p.1).isSome = true) → cap < 2 ^ 63 →
      cora_map_insert s m name v = (true, s1) →
      ∀ h2, h2 ≠ m → h2 < s.objects.length →
        resolve s1 h2 = resolve s h2) := by
  refine ⟨?_, ?_, ?_⟩
  · intro ops s g hinv h hsome
    obtain ⟨hwf, hlen, hgh⟩ := runT_inv ops s g hinv
    cases he : (runT (s, g) ops).1.objects[h]? with
    | none =>
      rw [resolve_of_none he] at hsome
      cases hsome
    | some e =>
      rw [resolve_of_entry he] at hsome ⊢
      by_cases hl : e.live = true
      · rw [if_pos hl]
        have hg := hgh h (getElem?_some_lt he)
        unfold ghostOK at hg
        rw [he] at hg
        exact hg hl
      · rw [if_neg hl] at hsome
        cases hsome
  · intro s l x s1 l1 cap xs hwf hd hcap hx hxx hr
    obtain ⟨h1, -, h3, -⟩ := cora_list_append_spec hwf hd hcap hx hxx hr
    exact ⟨h1, h3⟩
  · intro s m v cap name ps s1 hwf hd hfind hv hname hhn hx hnames hcap hr
    exact (cora_map_insert_absent hwf hd hfind hv hname hhn hx hnames hcap
      hr).2.2.2.1

set_option maxRecDepth 20000 in
theorem claim_handle_stability_witness :
    ((runT (stabilityStore, ([] : Ghost)) stabilityOps).2[0]? =
      some (resolve (runT (stabilityStore, ([] : Ghost))
        stabilityOps).1 0)) ∧
    ((cora_list_append listStore 0 9).2.2 = 0 ∧
      resolve (cora_list_append listStore 0 9).2.1 1 =
        resolve listStore 1) ∧
    resolve (cora_map_insert mapStore 0 [98] 2).2 2 =
      resolve mapStore 2 := by
  refine ⟨?_, ?_, ?_⟩
  · exact claim_handle_stability.1 stabilityOps stabilityStore []
      (by decide) 0 (by decide)
  · have h := claim_handle_stability.2.1 listStore 0 9
      (cora_list_append listStore 0 9).2.1
      (cora_list_append listStore 0 9).2.2 1 [7] (by decide) (by decide)
      (by decide) (by decide) (by decide) (by decide)
    exact ⟨h.1, h.2 1 (by decide)⟩
  · exact claim_handle_stability.2.2 mapStore 0 2 1 [98] [(1, 2)]
      (cora_map_insert mapStore 0 [98] 2).2 (by decide) (by decide)
      (by decide) (by decide) (by decide) (by decide) (by decide)
      (by decide) (by decide) (by decide) 2 (by decide) (by decide)

/-- C2: Out-of-memory atomicity — whenever a constructor reports failure
(`none`) or a container mutation reports `false`, the visible store (all
fields except the host-callback bookkeeping) equals the pre-call store, so
the affected container's length, items and pairs are unchanged and no
partial mutation is observable; moreover a host that refuses the growth
request does make a constructor call and a capacity-exceeded append fail. -/
theorem claim_oom_atomicity :
    (∀ (s : Store) (x : Int) (s1 : Store), cora_int s x = (none, s1) →
      s1.visible = s.visible) ∧
    (∀ (s : Store) (bits : Nat) (s1 : Store),
      cora_float s bits = (none, s1) → s1.visible = s.visible) ∧
    (∀ (s : Store) (x : Nat) (s1 : Store), cora_char s x = (none, s1) →
      s1.visible = s.visible) ∧
    (∀ (s : Store) (b : Bool) (s1 : Store), cora_bool s b = (none, s1) →
      s1.visible = s.visible) ∧
    (∀ (s : Store) (x : List Nat) (s1 : Store),
      cora_string s x = (none, s1) → s1.visible = s.visible) ∧
    (∀ (s s1 : Store), cora_list s = (none, s1) →
      s1.visible = s.visible) ∧
    (∀ (s s1 : Store), cora_map s = (none, s1) →
      s1.visible = s.visible) ∧
    (∀ (s : Store) (l x : Nat) (s1 : Store) (l1 : Nat),
      cora_list_append s l x = (false, s1, l1) →
      s1.visible = s.visible ∧ l1 = l ∧
      cora_list_items s1 l = cora_list_items s l ∧
      cora_list_length s1 l = cora_list_length s l) ∧
    (∀ (s : Store) (l x index : Nat) (s1 : Store) (l1 : Nat),
      cora_list_insert s l x index = (false, s1, l1) →
      s1.visible = s.visible ∧ l1 = l ∧
      cora_list_items s1 l = cora_list_items s l ∧
      cora_list_length s1 l = cora_list_length s l) ∧
    (∀ (s : Store) (m : Nat) (name : List Nat) (v : Nat) (s1 : Store),
      WF s → cora_map_insert s m name v = (false, s1) →
      s1.visible = s.visible ∧
      cora_map_length s1 m = cora_map_length s m ∧
      cora_map_pairs s1 m = cora_map_pairs s m) ∧
    (∀ (s : Store) (x : Int), s.memLen < s.used + 8 →
      (s.grants[s.calls]?).getD none = none → (cora_int s x).1 = none) ∧
    (∀ (s : Store) (l x cap : Nat) (xs : List Nat),
      listDecode s l = some (cap, xs) → ¬ xs.length < cap →
      s.memLen < s.used + (8 + 8 * max 1 (2 * cap)) →
      (s.grants[s.calls]?).getD none = none →
      (cora_list_append s l x).1 = false) := by
  refine ⟨?_, ?_, ?_, ?_, ?_, ?_, ?_, ?_, ?_, ?_, ?_, ?_⟩
  · intro s x s1 hr
    rw [allocObj_none hr]
    rfl
  · intro s bits s1 hr
    rw [allocObj_none hr]
    rfl
  · intro s x s1 hr
    rw [allocObj_none hr]
    rfl
  · intro s b s1 hr
    rw [allocObj_none hr]
    rfl
  · intro s x s1 hr
    rw [allocObj_none hr]
    rfl
  · intro s s1 hr
    rw [allocObj_none hr]
    rfl
  · intro s s1 hr
    rw [allocObj_none hr]
    rfl
  · intro s l x s1 l1 hr
    obtain ⟨hs1, hl1⟩ := cora_list_append_false hr
    rw [hs1]
    exact ⟨rfl, hl1, rfl, rfl⟩
  · intro s l x index s1 l1 hr
    obtain ⟨hs1, hl1⟩ := cora_list_insert_false hr
    rw [hs1]
    exact ⟨rfl, hl1, rfl, rfl⟩
  · intro s m name v s1 hwf hr
    rw [cora_map_insert_false hwf hr]
    exact ⟨rfl, rfl, rfl⟩
  · intro s x h1 h2
    exact cora_int_refused h1 h2
  · intro s l x cap xs hd hfull hmem hrefuse
    exact cora_list_append_refused hd hfull hmem hrefuse

set_option maxRecDepth 20000 in
theorem claim_oom_atomicity_witness :
    (cora_int refuseStore 5).2.visible = refuseStore.visible ∧
    (cora_float refuseStore 7).2.visible = refuseStore.visible ∧
    (cora_char refuseStore 97).2.visible = refuseStore.visible ∧
    (cora_bool refuseStore true).2.visible = refuseStore.visible ∧
    (cora_string refuseStore [104]).2.visible = refuseStore.visible ∧
    (cora_list refuseStore).2.visible = refuseStore.visible ∧
    (cora_map refuseStore).2.visible = refuseStore.visible ∧
    ((cora_list_append fullListRefuse 0 9).2.1.visible =
        fullListRefuse.visible ∧
      cora_list_items (cora_list_append fullListRefuse 0 9).2.1 0 =
        cora_list_items fullListRefuse 0) ∧
    ((cora_list_insert fullListRefuse 0 9 0).2.1.visible =
        fullListRefuse.visible ∧
      cora_list_length (cora_list_insert fullListRefuse 0 9 0).2.1 0 =
        cora_list_length fullListRefuse 0) ∧
    ((cora_map_insert { mapStore with grants := [] } 0 [98] 2).2.visible =
        ({ mapStore with grants := [] } : Store).visible ∧
      cora_map_length
        (cora_map_insert { mapStore with grants := [] } 0 [98] 2).2 0 =
        cora_map_length { mapStore with grants := [] } 0) ∧
    (cora_int refuseStore 3).1 = none ∧
    (cora_list_append fullListRefuse 0 9).1 = false := by
  obtain ⟨c1, c2, c3, c4, c5, c6, c7, c8, c9, c10, c11, c12⟩ :=
    claim_oom_atomicity
  refine ⟨?_, ?_, ?_, ?_, ?_, ?_, ?_, ?_, ?_, ?_, ?_, ?_⟩
  · exact c1 refuseStore 5 (cora_int refuseStore 5).2 (by decide)
  · exact c2 refuseStore 7 (cora_float refuseStore 7).2 (by decide)
  · exact c3 refuseStore 97 (cora_char refuseStore 97).2 (by decide)
  · exact c4 refuseStore true (cora_bool refuseStore true).2 (by decide)
  · exact c5 refuseStore [104] (cora_string refuseStore [104]).2 (by decide)
  · exact c6 refuseStore (cora_list refuseStore).2 (by decide)
  · exact c7 refuseStore (cora_map refuseStore).2 (by decide)
  · have h := c8 fullListRefuse 0 9 (cora_list_append fullListRefuse 0 9).2.1
      (cora_list_append fullListRefuse 0 9).2.2 (by decide)
    exact ⟨h.1, h.2.2.1⟩
  · have h := c9 fullListRefuse 0 9 0
      (cora_list_insert fullListRefuse 0 9 0).2.1
      (cora_list_insert fullListRefuse 0 9 0).2.2 (by decide)
    exact ⟨h.1, h.2.2.2⟩
  · have h := c10 { mapStore with grants := [] } 0 [98] 2
      (cora_map_insert { mapStore with grants := [] } 0 [98] 2).2
      (by decide) (by decide)
    exact ⟨h.1, h.2.1⟩
  · exact c11 refuseStore 3 (by decide) (by decide)
  · exact c12 fullListRefuse 0 9 1 [7] (by decide) (by decide) (by decide)
      (by decide)

/-- C3: Arena resize contract — `try_expand_memory`, modelled by
`tryExpand`, either succeeds with a buffer of the requested length whose
first `min(old_len, new_len)` bytes equal the old buffer's bytes at the
same relative offsets, or fails (returns `NULL`) leaving the buffer,
its length, and the object table exactly as they were; and a request with
`new_len = 0` releases the buffer entirely, after which no handle
resolves. -/
theorem claim_arena_resize_contract :
    (∀ (s : Store) (n b : Nat) (s1 : Store), s.memory.length = s.memLen →
      tryExpand s n = (some b, s1) →
      s1.memLen = n ∧
      extract s1.memory 0 (min s.memLen n) =
        extract s.memory 0 (min s.memLen n)) ∧
    (∀ (s : Store) (n : Nat) (s1 : Store), tryExpand s n = (none, s1) →
      s1.base = s.base ∧ s1.memLen = s.memLen ∧ s1.memory = s.memory ∧
      s1.used = s.used ∧ s1.objects = s.objects) ∧
    (∀ s : Store, (tryExpand s 0).2.memLen = 0 ∧
      (tryExpand s 0).2.memory = [] ∧
      ∀ h : Nat, resolve (tryExpand s 0).2 h = none) := by
  refine ⟨?_, ?_, ?_⟩
  · intro s n b s1 hm hr
    by_cases h0 : n = 0
    · subst h0
      unfold tryExpand at hr
      rw [if_pos rfl] at hr
      injection hr with hb hs
      subst hs
      refine ⟨rfl, ?_⟩
      simp [extract]
    · obtain ⟨hml, hmem, -, -, -, -, -, -⟩ := tryExpand_some h0 hr
      refine ⟨hml, ?_⟩
      rw [hmem]
      have hlen : (s.memory.take (min s.memLen n)).length =
          min s.memLen n := by
        rw [List.length_take, hm]
        omega
      have hp := extract_prefix (s.memory.take (min s.memLen n))
        (List.replicate (n - min s.memLen n) 0)
      rw [hlen] at hp
      rw [hp]
      unfold extract
      rw [List.drop_zero]
  · intro s n s1 hr
    rw [tryExpand_none hr]
    exact ⟨rfl, rfl, rfl, rfl, rfl⟩
  · intro s
    refine ⟨rfl, rfl, ?_⟩
    intro h
    cases he : (tryExpand s 0).2.objects[h]? with
    | none => exact resolve_of_none he
    | some e =>
      rw [resolve_of_entry he]
      have hobj : (tryExpand s 0).2.objects =
          s.objects.map fun e => { e with live := false } := rfl
      rw [hobj, List.getElem?_map] at he
      cases hso : s.objects[h]? with
      | none =>
        rw [hso] at he
        cases he
      | some e0 =>
        rw [hso] at he
        injection he with he2
        rw [← he2]
        rfl

theorem claim_arena_resize_contract_witness :
    ((tryExpand growStore 6).2.memLen = 6 ∧
      extract (tryExpand growStore 6).2.memory 0
          (min growStore.memLen 6) =
        extract growStore.memory 0 (min growStore.memLen 6)) ∧
    ((tryExpand refuseStore 9).2.base = refuseStore.base ∧
      (tryExpand refuseStore 9).2.memory = refuseStore.memory) ∧
    ((tryExpand growStore 0).2.memory = [] ∧
      resolve (tryExpand growStore 0).2 0 = none) := by
  refine ⟨?_, ?_, ?_⟩
  · exact claim_arena_resize_contract.1 growStore 6 5
      (tryExpand growStore 6).2 (by decide) (by decide)
  · have h := claim_arena_resize_contract.2.1 refuseStore 9
      (tryExpand refuseStore 9).2 (by decide)
    exact ⟨h.1, h.2.2.1⟩
  · have h := claim_arena_resize_contract.2.2 growStore
    exact ⟨h.2.1, h.2.2 0⟩

/-- C4: Map replace semantics — if map `m` already binds `name` (lookup
yields `v1`), inserting `(name, v2)` succeeds, leaves the map's length
unchanged, makes `name` look up to `v2`, and does not free the replaced
value handle: the object table is unchanged and every handle other than
the map still resolves to the same bytes (so `v1`'s object survives); if
`name` was absent, a successful insert appends a new pair and the length
grows by exactly one. -/
theorem claim_map_replace :
    (∀ (s : Store) (m v1 v2 cap : Nat) (name : List Nat)
      (ps : List (Nat × Nat)),
      WF s → mapDecode s m = some (cap, ps) →
      mapLookup s m name = some v1 → v2 < 2 ^ 64 →
      (∀ p ∈ ps, p.1 < 2 ^ 64 ∧ p.2 < 2 ^ 64) → ps.length < 2 ^ 64 →
      (cora_map_insert s m name v2).1 = true ∧
      cora_map_length (cora_map_insert s m name v2).2 m =
        cora_map_length s m ∧
      mapLookup (cora_map_insert s m name v2).2 m name = some v2 ∧
      ((cora_map_insert s m name v2).2).objects = s.objects ∧
      (∀ h2, h2 ≠ m →
        resolve ((cora_map_insert s m name v2).2) h2 = resolve s h2)) ∧
    (∀ (s : Store) (m v cap : Nat) (name : List Nat)
      (ps : List (Nat × Nat)) (s1 : Store),
      WF s → mapDecode s m = some (cap, ps) →
      mapLookup s m name = none →
      v < 2 ^ 64 → name.length < 2 ^ 64 → s.objects.length < 2 ^ 64 →
      (∀ p ∈ ps, p.1 < 2 ^ 64 ∧ p.2 < 2 ^ 64) →
      (∀ p ∈ ps, (nameOf s p.1).isSome = true) → cap < 2 ^ 63 →
      cora_map_insert s m name v = (true, s1) →
      cora_map_length s1 m = cora_map_length s m + 1 ∧
      mapLookup s1 m name = some v) := by
  refine ⟨?_, ?_⟩
  · intro s m v1 v2 cap name ps hwf hd hlk hv hx hlen64
    rw [mapLookup_of_decode hd] at hlk
    cases hf : findPairIdx s ps name with
    | none =>
      rw [hf] at hlk
      have hlk2 : (none : Option Nat) = some v1 := hlk
      cases hlk2
    | some i =>
      obtain ⟨h1, -, h3, h4, h5, h6, -⟩ :=
        cora_map_insert_replace hwf hd hf hv hx hlen64
      refine ⟨h1, ?_, h4, h5, h6⟩
      rw [h3, cora_map_length_of_decode hd]
  · intro s m v cap name ps s1 hwf hd hlk hv hname hhn hx hnames hcap hr
    rw [mapLookup_of_decode hd] at hlk
    cases hf : findPairIdx s ps name with
    | some i =>
      rw [hf] at hlk
      obtain ⟨p, hp1, -⟩ := findPairIdx_some s name ps i hf
      have hlk2 : (ps[i]?).map (fun p => p.2) = none := hlk
      rw [hp1] at hlk2
      cases hlk2
    | none =>
      obtain ⟨-, hlen, hlkp, -, -⟩ :=
        cora_map_insert_absent hwf hd hf hv hname hhn hx hnames hcap hr
      refine ⟨?_, hlkp⟩
      rw [hlen, cora_map_length_of_decode hd]

set_option maxRecDepth 20000 in
theorem claim_map_replace_witness :
    ((cora_map_insert mapStore 0 [97] 5).1 = true ∧
      cora_map_length (cora_map_insert mapStore 0 [97] 5).2 0 =
        cora_map_length mapStore 0 ∧
      mapLookup (cora_map_insert mapStore 0 [97] 5).2 0 [97] = some 5 ∧
      ((cora_map_insert mapStore 0 [97] 5).2).objects =
        mapStore.objects) ∧
    (cora_map_length (cora_map_insert mapStore 0 [98] 2).2 0 =
        cora_map_length mapStore 0 + 1 ∧
      mapLookup (cora_map_insert mapStore 0 [98] 2).2 0 [98] = some 2) := by
  refine ⟨?_, ?_⟩
  · have h := claim_map_replace.1 mapStore 0 2 5 1 [97] [(1, 2)]
      (by decide) (by decide) (by decide) (by decide) (by decide)
      (by decide)
    exact ⟨h.1, h.2.1, h.2.2.1, h.2.2.2.1⟩
  · exact claim_map_replace.2 mapStore 0 2 1 [98] [(1, 2)]
      (cora_map_insert mapStore 0 [98] 2).2 (by decide) (by decide)
      (by decide) (by decide) (by decide) (by decide) (by decide)
      (by decide) (by decide) (by decide)

/-- C5: List insert index policy — a successful `cora_list_insert` at an
index `i ≤ length` places `x` at position `i`, shifting the subsequent
elements up (insert at 0 prepends), while any index greater than the
length is clamped to an append at the end; either way the list handle is
returned unchanged. -/
theorem claim_list_insert_policy :
    (∀ (s : Store) (l x index cap : Nat) (xs : List Nat) (s1 : Store)
      (l1 : Nat), WF s → listDecode s l = some (cap, xs) → cap < 2 ^ 63 →
      (∀ y ∈ xs, y < 2 ^ 64) → x < 2 ^ 64 → index ≤ xs.length →
      cora_list_insert s l x index = (true, s1, l1) →
      l1 = l ∧
      cora_list_items s1 l =
        some (xs.take index ++ x :: xs.drop index)) ∧
    (∀ (s : Store) (l x index cap : Nat) (xs : List Nat) (s1 : Store)
      (l1 : Nat), WF s → listDecode s l = some (cap, xs) → cap < 2 ^ 63 →
      (∀ y ∈ xs, y < 2 ^ 64) → x < 2 ^ 64 → xs.length < index →
      cora_list_insert s l x index = (true, s1, l1) →
      l1 = l ∧ cora_list_items s1 l = some (xs ++ [x])) := by
  refine ⟨?_, ?_⟩
  · intro s l x index cap xs s1 l1 hwf hd hcap hx hxx hle hr
    obtain ⟨h1, ⟨cap2, hdec⟩, -, -⟩ :=
      cora_list_insert_spec hwf hd hcap hx hxx hr
    refine ⟨h1, ?_⟩
    unfold cora_list_items
    rw [hdec, insertAt_eq, Nat.min_eq_left hle]
    rfl
  · intro s l x index cap xs s1 l1 hwf hd hcap hx hxx hgt hr
    obtain ⟨h1, ⟨cap2, hdec⟩, -, -⟩ :=
      cora_list_insert_spec hwf hd hcap hx hxx hr
    refine ⟨h1, ?_⟩
    unfold cora_list_items
    rw [hdec, insertAt_eq, Nat.min_eq_right (by omega),
      List.take_length, List.drop_length]
    rfl

set_option maxRecDepth 20000 in
theorem claim_list_insert_policy_witness :
    ((cora_list_insert roomListStore 0 9 0).2.2 = 0 ∧
      cora_list_items (cora_list_insert roomListStore 0 9 0).2.1 0 =
        some [9, 7, 8]) ∧
    cora_list_items (cora_list_insert roomListStore 0 9 100).2.1 0 =
      some [7, 8, 9] := by
  refine ⟨?_, ?_⟩
  · exact claim_list_insert_policy.1 roomListStore 0 9 0 3 [7, 8]
      (cora_list_insert roomListStore 0 9 0).2.1
      (cora_list_insert roomListStore 0 9 0).2.2 (by decide) (by decide)
      (by decide) (by decide) (by decide) (by decide) (by decide)
  · exact (claim_list_insert_policy.2 roomListStore 0 9 100 3 [7, 8]
      (cora_list_insert roomListStore 0 9 100).2.1
      (cora_list_insert roomListStore 0 9 100).2.2 (by decide) (by decide)
      (by decide) (by decide) (by decide) (by decide) (by decide)).2

/-- C6 (counterexample): not every list/map mutation operation returns a
boolean — `cora_list_del` is declared `void` in the header (as is
`cora_map_del`), so the deletes have no error surface at all. -/
theorem claim_mutation_bool_counterexample :
    ¬ ∀ d ∈ coraMutationDecls, d.ret = CType.cbool := by
  intro hall
  exact absurd (hall cora_list_del_decl (by decide)) (by decide)

/-- C6 (amended): the inserting mutations (`cora_list_append`,
`cora_list_insert`, `cora_map_insert`) return a boolean with
out-of-memory as the only failure (a refused growth is reported as
`false` with the visible state intact), while the deletes
(`cora_list_del`, `cora_map_del`) are declared `void`; deleting a list
index at or past the length and deleting an absent map name are silent
no-ops that leave the store untouched. -/
theorem claim_mutation_error_surface :
    (cora_list_append_decl.ret = CType.cbool ∧
      cora_list_insert_decl.ret = CType.cbool ∧
      cora_map_insert_decl.ret = CType.cbool) ∧
    (cora_list_del_decl.ret = CType.void ∧
      cora_map_del_decl.ret = CType.void) ∧
    (∀ (s : Store) (l x index cap : Nat) (xs : List Nat),
      listDecode s l = some (cap, xs) → xs.length ≤ index →
      cora_list_del s l x index = (s, l)) ∧
    (∀ (s : Store) (m cap : Nat) (name : List Nat)
      (ps : List (Nat × Nat)),
      mapDecode s m = some (cap, ps) → findPairIdx s ps name = none →
      cora_map_del s m name = s) ∧
    (∀ (s : Store) (l x cap : Nat) (xs : List Nat),
      listDecode s l = some (cap, xs) → xs.length < cap →
      (cora_list_append s l x).1 = true) ∧
    (∀ (s : Store) (l x : Nat) (s1 : Store) (l1 : Nat),
      cora_list_append s l x = (false, s1, l1) →
      s1.visible = s.visible) := by
  refine ⟨⟨rfl, rfl, rfl⟩, ⟨rfl, rfl⟩, ?_, ?_, ?_, ?_⟩
  · intro s l x index cap xs hd hge
    exact cora_list_del_noop hd hge
  · intro s m cap name ps hd hfind
    exact cora_map_del_missing hd hfind
  · intro s l x cap xs hd hlt
    rw [cora_list_append_of_decode hd, if_pos hlt]
  · intro s l x s1 l1 hr
    rw [(cora_list_append_false hr).1]
    rfl

set_option maxRecDepth 20000 in
theorem claim_mutation_error_surface_witness :
    cora_list_del roomListStore 0 9 10 = (roomListStore, 0) ∧
    cora_map_del mapStore 0 [98] = mapStore ∧
    (cora_list_append roomListStore 0 9).1 = true ∧
    (cora_list_append fullListRefuse 0 9).2.1.visible =
      fullListRefuse.visible := by
  obtain ⟨-, -, c3, c4, c5, c6⟩ := claim_mutation_error_surface
  refine ⟨?_, ?_, ?_, ?_⟩
  · exact c3 roomListStore 0 9 10 3 [7, 8] (by decide) (by decide)
  · exact c4 mapStore 0 1 [98] [(1, 2)] (by decide) (by decide)
  · exact c5 roomListStore 0 9 3 [7, 8] (by decide) (by decide)
  · exact c6 fullListRefuse 0 9 (cora_list_append fullListRefuse 0 9).2.1
      (cora_list_append fullListRefuse 0 9).2.2 (by decide)

/-- C7: Round-trip scalar encoding — for each scalar kind (int, float,
char, bool, string), successfully constructing an object from a value
and decoding the object's resolved payload returns the value exactly;
the float is carried and recovered by its 64 raw IEEE-754 bits, so the
round trip is bit-exact even for floats with no integer value. -/
theorem claim_scalar_roundtrip :
    (∀ (s : Store) (x : Int) (h : Nat) (s1 : Store), WF s →
      cora_int s x = (some h, s1) → -(2 ^ 63) ≤ x → x < 2 ^ 63 →
      resolveTag s1 h = some CoraType.int ∧
      (resolve s1 h).map decInt64 = some x) ∧
    (∀ (s : Store) (bits h : Nat) (s1 : Store), WF s →
      cora_float s bits = (some h, s1) → bits < 2 ^ 64 →
      resolveTag s1 h = some CoraType.float ∧
      (resolve s1 h).map (decLE 8) = some bits) ∧
    (∀ (s : Store) (x h : Nat) (s1 : Store), WF s →
      cora_char s x = (some h, s1) → x < 2 ^ 32 →
      resolveTag s1 h = some CoraType.char ∧
      (resolve s1 h).map (decLE 4) = some x) ∧
    (∀ (s : Store) (b : Bool) (h : Nat) (s1 : Store), WF s →
      cora_bool s b = (some h, s1) →
      resolveTag s1 h = some CoraType.bool ∧
      (resolve s1 h).bind decBool = some b) ∧
    (∀ (s : Store) (x : List Nat) (h : Nat) (s1 : Store), WF s →
      cora_string s x = (some h, s1) → x.length < 2 ^ 64 →
      resolveTag s1 h = some CoraType.string ∧
      (resolve s1 h).map decString = some x) := by
  refine ⟨?_, ?_, ?_, ?_, ?_⟩
  · intro s x h s1 hwf hr h1 h2
    exact cora_int_spec hwf hr h1 h2
  · intro s bits h s1 hwf hr hb
    exact cora_float_spec hwf hr hb
  · intro s x h s1 hwf hr hx
    exact cora_char_spec hwf hr hx
  · intro s b h s1 hwf hr
    exact cora_bool_spec hwf hr
  · intro s x h s1 hwf hr hx
    exact cora_string_spec hwf hr hx

set_option maxRecDepth 20000 in
theorem claim_scalar_roundtrip_witness :
    ((resolve (cora_int growStore (-5)).2 0).map decInt64 =
      some (-5)) ∧
    ((resolve (cora_float growStore 4602678819172646912).2 0).map
        (decLE 8) = some 4602678819172646912) ∧
    ((resolve (cora_char growStore 97).2 0).map (decLE 4) = some 97) ∧
    ((resolve (cora_bool growStore true).2 0).bind decBool =
      some true) ∧
    ((resolve (cora_string growStore [104, 105]).2 0).map decString =
      some [104, 105]) := by
  refine ⟨?_, ?_, ?_, ?_, ?_⟩
  · exact (claim_scalar_roundtrip.1 growStore (-5) 0
      (cora_int growStore (-5)).2 (by decide) (by decide) (by decide)
      (by decide)).2
  · exact (claim_scalar_roundtrip.2.1 growStore 4602678819172646912 0
      (cora_float growStore 4602678819172646912).2 (by decide)
      (by decide) (by decide)).2
  · exact (claim_scalar_roundtrip.2.2.1 growStore 97 0
      (cora_char growStore 97).2 (by decide) (by decide) (by decide)).2
  · exact (claim_scalar_roundtrip.2.2.2.1 growStore true 0
      (cora_bool growStore true).2 (by decide) (by decide)).2
  · exact (claim_scalar_roundtrip.2.2.2.2 growStore [104, 105] 0
      (cora_string growStore [104, 105]).2 (by decide) (by decide)
      (by decide)).2

/-- C8: Native redefinition semantics — defining a function name that is
already bound silently replaces the prior binding: lookup after the
second definition returns the second implementation, a registry with at
most one entry for the name still has exactly one entry for it
afterwards (no duplicates), and bindings of every other name are
untouched. -/
theorem claim_native_redefinition :
    (∀ (r : Registry) (name : String) (f1 f2 : Nat),
      lookupFunction (defineFunction (defineFunction r name f1) name f2)
        name = some f2) ∧
    (∀ (r : Registry) (name : String) (f : Nat), countName r name ≤ 1 →
      countName (defineFunction r name f) name = 1) ∧
    (∀ (r : Registry) (name other : String) (f1 f2 : Nat), other ≠ name →
      lookupFunction (defineFunction (defineFunction r name f1) name f2)
        other = lookupFunction r other) := by
  refine ⟨?_, ?_, ?_⟩
  · intro r name f1 f2
    exact lookupFunction_defineFunction_self (defineFunction r name f1)
      name f2
  · intro r name f hle
    rw [countName_defineFunction]
    omega
  · intro r name other f1 f2 hne
    rw [lookupFunction_defineFunction_other _ name other f2 hne,
      lookupFunction_defineFunction_other r name other f1 hne]

theorem claim_native_redefinition_witness :
    lookupFunction (defineFunction (defineFunction [("g", 1)] "f" 10)
      "f" 20) "f" = some 20 ∧
    countName (defineFunction [("g", 1)] "f" 20) "f" = 1 ∧
    lookupFunction (defineFunction (defineFunction [("g", 1)] "f" 10)
      "f" 20) "g" = lookupFunction [("g", 1)] "g" := by
  refine ⟨?_, ?_, ?_⟩
  · exact claim_native_redefinition.1 [("g", 1)] "f" 10 20
  · exact claim_native_redefinition.2.1 [("g", 1)] "f" 20 (by decide)
  · exact claim_native_redefinition.2.2 [("g", 1)] "f" "g" 10 20
      (by decide)

/-- C9 (counterexample): not every operation of the header takes the
runtime instance explicitly — `cora_define_function` (and
`cora_define_module`) take no `cora_state*` argument at all, so native
registration is global rather than scoped to a store instance. -/
theorem claim_explicit_context_counterexample :
    ¬ ∀ d ∈ coraApiDecls, CType.statePtr ∈ d.args := by
  intro hall
  exact absurd (hall cora_define_function_decl (by decide)) (by decide)

/-- C9 (amended): every declared operation except the two registration
functions takes the runtime instance as its explicit first argument
(`cora_state*`); `cora_define_function` and `cora_define_module` take no
state argument, so their registrations cannot be scoped to one of two
distinct store instances. -/
theorem claim_explicit_context :
    (∀ d ∈ coraApiDecls, d ≠ cora_define_function_decl →
      d ≠ cora_define_module_decl →
      d.args[0]? = some CType.statePtr) ∧
    CType.statePtr ∉ cora_define_function_decl.args ∧
    CType.statePtr ∉ cora_define_module_decl.args := by
  refine ⟨?_, by decide, by decide⟩
  decide

theorem claim_explicit_context_witness :
    cora_int_decl.args[0]? = some CType.statePtr :=
  claim_explicit_context.1 cora_int_decl (by decide) (by decide)
    (by decide)

/-- C10: The result of `cora_list_del` is independent of its `x`
argument — from any pre-state, calling it with any two values `x1`, `x2`
at the same list and index produces identical post-states — and, being
declared `void`, it can never report an out-of-memory failure to the
caller. -/
theorem claim_list_del_x_independent :
    (∀ (s : Store) (l x1 x2 index : Nat),
      cora_list_del s l x1 index = cora_list_del s l x2 index) ∧
    cora_list_del_decl.ret = CType.void :=
  ⟨fun _ _ _ _ _ => rfl, rfl⟩

end Cora
